import Mathlib

/-!
# Verification of the load-text parsing engine and frontend helpers

The repository's load-posting parser (trip header + legs) is specified in
`spec.md`; the backend implementation is not part of the available sources,
so the pipeline below is modelled from the spec (each definition says so in
its doc comment).  The frontend helpers `formatNumber` and `apiRequest` are
translated from `src/frontend/src/lib/utils.ts` and
`src/frontend/src/lib/api/client.ts`.

All string processing is implemented with structurally recursive
char-list operations so every definition evaluates inside the kernel.
-/

namespace LoadParser

/-- Apostrophe character, built by code point to keep source text plain. -/
def apos : Char := Char.ofNat 39

/-- Apostrophe as a one-character string. -/
def aposStr : String := String.mk [apos]

/-- Split a char list at every occurrence of the character `sep`. -/
def splitOnChar (sep : Char) : List Char → List (List Char)
  | [] => [[]]
  | c :: cs =>
    if c = sep then [] :: splitOnChar sep cs
    else
      match splitOnChar sep cs with
      | h :: t => (c :: h) :: t
      | [] => [[c]]

/-- Split a char list at every occurrence of the two-char separator `, `. -/
def splitCommaSpace : List Char → List (List Char)
  | [] => [[]]
  | [c] => [[c]]
  | c1 :: c2 :: rest =>
    if c1 = ',' && c2 = ' ' then [] :: splitCommaSpace rest
    else
      match splitCommaSpace (c2 :: rest) with
      | h :: t => (c1 :: h) :: t
      | [] => [[c1]]

/-- Leading-match test: `pre` is an initial segment of the second list. -/
def leadMatch : List Char → List Char → Bool
  | [], _ => true
  | _ :: _, [] => false
  | a :: as, b :: bs => a = b && leadMatch as bs

/-- `suf` is a final segment of `l`. -/
def endsWithChars (suf l : List Char) : Bool := leadMatch suf.reverse l.reverse

/-- Whitespace trimmed from line ends by the tokenizer. -/
def isSpaceChar (c : Char) : Bool := c = ' ' || c = '\t' || c = '\r'

/-- Trim surrounding whitespace from a char list. -/
def trimChars (l : List Char) : List Char :=
  ((l.dropWhile isSpaceChar).reverse.dropWhile isSpaceChar).reverse

/-- Modelled from the spec: §4.1 Tokenizer — split the blob into trimmed,
non-empty lines (blank lines separate field groups and are dropped). -/
def tokenize (input : String) : List String :=
  (((splitOnChar '\n' input.toList).map trimChars).filter (fun l => l ≠ [])).map
    String.mk

/-- A non-empty all-digit char list. -/
def isDigits (l : List Char) : Bool := !l.isEmpty && l.all Char.isDigit

/-- Numeric value of a big-endian digit-character list. -/
def natOfDigits (l : List Char) : Nat :=
  l.foldl (fun a c => a * 10 + (c.toNat - 48)) 0

/-- Modelled from the spec: §4.2 DateTime shape `Weekday, Month Day, HH:MM TZ`
split into its normalized fields (year intentionally absent, §4.4). -/
structure DateParts where
  month : Nat
  day : Nat
  hour : Nat
  minute : Nat
  tzOffsetMinutes : Int
deriving DecidableEq

/-- Modelled from the spec: recognized weekday abbreviations. -/
def weekdays : List String := ["Mon", "Tue", "Wed", "Thu", "Fri", "Sat", "Sun"]

/-- Modelled from the spec: month-name table for the DateTime classifier. -/
def monthNum (m : String) : Option Nat :=
  match m with
  | "Jan" => some 1
  | "Feb" => some 2
  | "Mar" => some 3
  | "Apr" => some 4
  | "May" => some 5
  | "Jun" => some 6
  | "Jul" => some 7
  | "Aug" => some 8
  | "Sep" => some 9
  | "Oct" => some 10
  | "Nov" => some 11
  | "Dec" => some 12
  | _ => none

/-- Modelled from the spec: timezone-abbreviation table giving the UTC offset
in minutes (`PDT` is −07:00, §4.4 / §8). -/
def tzOffset (tz : String) : Option Int :=
  match tz with
  | "PDT" => some (-420)
  | "PST" => some (-480)
  | "MDT" => some (-360)
  | "MST" => some (-420)
  | "CDT" => some (-300)
  | "CST" => some (-360)
  | "EDT" => some (-240)
  | "EST" => some (-300)
  | "UTC" => some 0
  | _ => none

/-- Modelled from the spec: parse a classified DateTime line
(`Sun, May 18, 05:28 PDT`) into its fields; `none` is a soft
normalization failure (§7). -/
def parseDateLine (s : String) : Option DateParts :=
  match splitCommaSpace s.toList with
  | [wd, md, tm] =>
    if weekdays.contains (String.mk wd) then
      match splitOnChar ' ' md, splitOnChar ' ' tm with
      | [mon, dayS], [hm, tz] =>
        match monthNum (String.mk mon), tzOffset (String.mk tz),
            splitOnChar ':' hm with
        | some m, some off, [hS, minS] =>
          if isDigits dayS && isDigits hS && isDigits minS then
            some ⟨m, natOfDigits dayS, natOfDigits hS, natOfDigits minS, off⟩
          else none
        | _, _, _ => none
      | _, _ => none
    else none
  | _ => none

/-- Shape test for a DateTime line: three comma-separated sections starting
with a weekday.  A line of this shape whose parse fails is a soft error. -/
def dateShape (s : String) : Bool :=
  match splitCommaSpace s.toList with
  | [wd, _, _] => weekdays.contains (String.mk wd)
  | _ => false

/-- Split a char list at the last occurrence of `c`; `none` if absent. -/
def splitLastAux (c : Char) : List Char → Option (List Char × List Char)
  | [] => none
  | x :: xs =>
    match splitLastAux c xs with
    | some (a, b) => some (x :: a, b)
    | none => if x = c then some ([], xs) else none

/-- Dialect test (§4.4): the digits contain an internal space. -/
def hasInternalSpace (l : List Char) : Bool := l.contains ' '

/-- Dialect test (§4.4): the token ends in a comma-and-two-digits suffix. -/
def endsWithCommaTwoDigits (l : List Char) : Bool :=
  match l.reverse with
  | d0 :: d1 :: c :: _ => d0.isDigit && d1.isDigit && c = ','
  | _ => false

/-- Modelled from the spec: dialect (a), space-grouped thousands with comma
decimal (`1 019,44` → 1019.44).  The value `intpart + frac/100` is built
with `mkRat` so it evaluates by reduction. -/
def spaceGroupedValue (l : List Char) : Option ℚ :=
  match splitLastAux ',' l with
  | some (bef, aft) =>
    if bef.all (fun c => c.isDigit || c = ' ') && aft.all Char.isDigit
        && aft.length = 2 then
      some (mkRat (natOfDigits (bef.filter Char.isDigit) * 100 + natOfDigits aft) 100)
    else none
  | none => none

/-- Modelled from the spec: dialect (b), rightmost `.` as the decimal point,
no thousands grouping (`2.98` → 2.98). -/
def dotDecimalValue (l : List Char) : Option ℚ :=
  match splitLastAux '.' l with
  | none => if isDigits l then some (natOfDigits l : ℚ) else none
  | some (bef, aft) =>
    if bef.all (fun c => c.isDigit || c = '.') && aft.all Char.isDigit
        && bef.any Char.isDigit then
      some (mkRat (natOfDigits (bef.filter Char.isDigit) * 10 ^ aft.length
        + natOfDigits aft) (10 ^ aft.length))
    else none

/-- Modelled from the spec: §4.4 money-dialect classification — dialect (a)
exactly when the digits contain an internal space and end with a
comma-and-two-digits suffix, otherwise dialect (b). -/
def parseMoneyBody (l : List Char) : Option ℚ :=
  if hasInternalSpace l && endsWithCommaTwoDigits l then spaceGroupedValue l
  else dotDecimalValue l

/-- Modelled from the spec: a trailing `/mi` marks a rate-per-mile value. -/
def stripPerMile (l : List Char) : List Char × Bool :=
  if endsWithChars ['/', 'm', 'i'] l then (l.take (l.length - 3), true)
  else (l, false)

/-- A normalized money token: amount plus the per-mile marker. -/
structure Money where
  amount : ℚ
  perMile : Bool
deriving DecidableEq

/-- Modelled from the spec: full Money normalization of a `$`-prefixed line
(`$1 019,44` or `$2.98/mi`); `none` is a soft failure. -/
def parseMoneyLine (s : String) : Option Money :=
  match s.toList with
  | '$' :: rest =>
    (parseMoneyBody (stripPerMile rest).1).map
      (fun q => ⟨q, (stripPerMile rest).2⟩)
  | _ => none

/-- Modelled from the spec: §4.2 semantic tags, one per classified line.
DateTime and Money lines that match the shape but fail normalization keep
the raw text with a `none` value (soft errors, §7). -/
inductive Tag where
  | tripId (v : String)
  | facility (text : String)
  | dateTimeTag (raw : String) (parts : Option DateParts)
  | distanceTag (v : ℚ)
  | durationTag (mins : Nat)
  | trailerTag (v : String)
  | loadTypeTag (v : String)
  | moneyTag (raw : String) (val : Option Money)
  | seqMarker (v : Nat)
  | unclassified (text : String)
deriving DecidableEq

/-- Modelled from the spec: a SequenceMarker is a standalone small integer. -/
def seqMarkerValue (s : String) : Option Nat :=
  if isDigits s.toList && decide (s.toList.length ≤ 2) then
    some (natOfDigits s.toList)
  else none

/-- Modelled from the spec: Distance shape `<number> mi` → miles. -/
def distanceValue (s : String) : Option ℚ :=
  if endsWithChars [' ', 'm', 'i'] s.toList then
    if isDigits (s.toList.take (s.toList.length - 3)) then
      some (natOfDigits (s.toList.take (s.toList.length - 3)) : ℚ)
    else none
  else none

/-- Modelled from the spec: Duration shape `<N>h <M>m` → total minutes. -/
def durationMinutes (s : String) : Option Nat :=
  match splitOnChar ' ' s.toList with
  | [a, b] =>
    if endsWithChars ['h'] a && endsWithChars ['m'] b then
      let ha := a.take (a.length - 1)
      let mb := b.take (b.length - 1)
      if isDigits ha && isDigits mb then
        some (natOfDigits ha * 60 + natOfDigits mb)
      else none
    else none
  | _ => none

/-- Modelled from the spec: TrailerSpec shape `<N>' Trailer`. -/
def trailerValue (s : String) : Option String :=
  let l := s.toList
  if endsWithChars (apos :: [' ', 'T', 'r', 'a', 'i', 'l', 'e', 'r']) l
      && isDigits (l.take (l.length - 9)) then
    some s
  else none

/-- Modelled from the spec: the closed LoadTypeKeyword vocabulary. -/
def loadTypeVocab : List String := ["Spot", "Drop/Live", "P", "D", "L"]

/-- Modelled from the spec: Facility shape — short alphanumeric code (letters
and digits, at least one of each) followed by `City, State ZIP`. -/
def isFacilityCode (w : List Char) : Bool :=
  !w.isEmpty && w.all (fun c => c.isAlpha || c.isDigit)
    && w.any Char.isDigit && w.any Char.isAlpha

/-- Modelled from the spec: full Facility line test
(`DCA2 Eastvale, California 91752`). -/
def facilityCheck (s : String) : Bool :=
  match splitOnChar ' ' s.toList with
  | w :: rest =>
    isFacilityCode w && decide (2 ≤ rest.length) && s.toList.contains ','
      && (match rest.getLast? with
          | some z => decide (z.length = 5) && isDigits z
          | none => false)
  | [] => false

/-- Modelled from the spec: TripId shape — letter-prefixed alphanumeric code
(dashes allowed) with embedded digits, no spaces. -/
def tripIdCheck (s : String) : Bool :=
  match s.toList with
  | c :: rest =>
    c.isAlpha && rest.any Char.isDigit
      && (c :: rest).all (fun ch => ch.isAlpha || ch.isDigit || ch = '-')
  | [] => false

/-- Modelled from the spec: §4.2 ordered rule table, first match wins, more
specific shapes before generic fallbacks. -/
def classifyLine (s : String) : Tag :=
  match seqMarkerValue s with
  | some v => .seqMarker v
  | none =>
  match distanceValue s with
  | some q => .distanceTag q
  | none =>
  match durationMinutes s with
  | some m => .durationTag m
  | none =>
  match trailerValue s with
  | some t => .trailerTag t
  | none =>
  if leadMatch ['$'] s.toList then .moneyTag s (parseMoneyLine s)
  else if dateShape s then .dateTimeTag s (parseDateLine s)
  else if facilityCheck s then .facility s
  else if tripIdCheck s then .tripId s
  else if loadTypeVocab.contains s then .loadTypeTag s
  else .unclassified s

/-- The classified line stream: original line index paired with its tag. -/
def tagsOfText (input : String) : List (Nat × Tag) :=
  (tokenize input).enum.map (fun p => (p.1, classifyLine p.2))

/-- Modelled from the spec: reference "now" for year inference (§4.4, §5) —
threaded as an explicit parameter per the design notes (§9). -/
structure RefDate where
  year : Nat
  month : Nat
  day : Nat
deriving DecidableEq

/-- Monotone day index used to compare a candidate date against "now". -/
def dayNumber (y m d : Nat) : Nat := y * 372 + (m - 1) * 31 + d

/-- Modelled from the spec: fixed slack window ("several months") for the
year-inference roll-forward. -/
def slackDays : Nat := 93

/-- Modelled from the spec: §4.4 year inference — current calendar year, but
rolled to the next year when the candidate date would fall more than the
slack window in the past relative to the reference date.  The Bool reports
whether the roll-forward fired. -/
def inferYear (ref : RefDate) (m d : Nat) : Nat × Bool :=
  if dayNumber ref.year m d + slackDays < dayNumber ref.year ref.month ref.day then
    (ref.year + 1, true)
  else (ref.year, false)

/-- A timezone-aware timestamp: calendar fields plus explicit UTC offset. -/
structure Timestamp where
  year : Nat
  month : Nat
  day : Nat
  hour : Nat
  minute : Nat
  offsetMinutes : Int
deriving DecidableEq

/-- Modelled from the spec: assemble an absolute timestamp from normalized
date parts, inferring the year; the Bool is the roll-forward marker. -/
def mkTimestamp (ref : RefDate) (p : DateParts) : Timestamp × Bool :=
  let yr := inferYear ref p.month p.day
  (⟨yr.1, p.month, p.day, p.hour, p.minute, p.tzOffsetMinutes⟩, yr.2)

/-- A Facility line together with its (optionally) following DateTime line —
the `Facility`+`DateTime` pair of §4.3. -/
structure FDPair where
  pos : Nat
  facilityText : String
  timeParts : Option DateParts
deriving DecidableEq

/-- Modelled from the spec: extract `Facility`+`DateTime` pairs in stream
order; a Facility followed by another Facility before any DateTime yields a
pair without a time. -/
def pairsAux : List (Nat × Tag) → Option (Nat × String) → List FDPair
  | [], pend =>
    (match pend with
     | some (i, f) => [⟨i, f, none⟩]
     | none => [])
  | (j, t) :: rest, pend =>
    match t, pend with
    | .dateTimeTag _ parts, some (i, f) => ⟨i, f, parts⟩ :: pairsAux rest none
    | .facility f2, some (i, f) => ⟨i, f, none⟩ :: pairsAux rest (some (j, f2))
    | .facility f2, none => pairsAux rest (some (j, f2))
    | _, _ => pairsAux rest pend

/-- All `Facility`+`DateTime` pairs of a classified stream. -/
def pairsOf (tags : List (Nat × Tag)) : List FDPair := pairsAux tags none

/-- All SequenceMarker lines of a classified stream, as (position, value). -/
def markersOf (tags : List (Nat × Tag)) : List (Nat × Nat) :=
  tags.filterMap (fun it =>
    match it.2 with
    | .seqMarker v => some (it.1, v)
    | _ => none)

/-- The pairs that occur strictly after stream position `pos`. -/
def pairsAfter (pairs : List FDPair) (pos : Nat) : List FDPair :=
  pairs.filter (fun p => pos < p.pos)

/-- Normalized pickup/dropoff time of a pair under the reference date. -/
def pairTime (ref : RefDate) (p : FDPair) : Option Timestamp :=
  p.timeParts.map (fun dp => (mkTimestamp ref dp).1)

/-- Leg identifier derived from the trip id and the sequence index. -/
def legIdOf (tid : String) (v : Nat) : String := tid ++ "-L" ++ toString v

/-- Address part of a Facility line: everything after the facility code. -/
def addressOf (s : String) : Option String :=
  match splitOnChar ' ' s.toList with
  | _ :: r :: est => some (String.mk (List.intercalate [' '] (r :: est)))
  | _ => none

/-- One pickup→dropoff segment of a trip (§3 Leg). -/
structure Leg where
  legId : String
  seqIndex : Nat
  pickupFac : Option String
  dropoffFac : Option String
  pickupAddr : Option String
  dropoffAddr : Option String
  pickupTime : Option Timestamp
  dropoffTime : Option Timestamp
  fuelSurcharge : ℚ
  distance : Option ℚ
  assignedDriver : Option String
deriving DecidableEq

/-- First Distance token strictly between stream positions `a` and `b`. -/
def legDistance (tags : List (Nat × Tag)) (a b : Nat) : Option ℚ :=
  (tags.filterMap (fun it =>
    match it.2 with
    | .distanceTag q => if a < it.1 && it.1 < b then some q else none
    | _ => none)).head?

/-- Modelled from the spec: §4.3 — a SequenceMarker opens a leg whose
sequence_index is the marker's own value; its pickup is the next
`Facility`+`DateTime` pair after the marker and its dropoff the pair after
that (per §9 the golden two-leg oracle fixes the interleaving: a pair may
serve as one leg's dropoff and the next leg's pickup). -/
def mkLegFromMarker (ref : RefDate) (tid : String) (tags : List (Nat × Tag))
    (pairs : List FDPair) (pos v : Nat) : Leg :=
  let after := pairsAfter pairs pos
  { legId := legIdOf tid v
    seqIndex := v
    pickupFac := (after[0]?).map (fun p => p.facilityText)
    dropoffFac := (after[1]?).map (fun p => p.facilityText)
    pickupAddr := (after[0]?).bind (fun p => addressOf p.facilityText)
    dropoffAddr := (after[1]?).bind (fun p => addressOf p.facilityText)
    pickupTime := (after[0]?).bind (pairTime ref)
    dropoffTime := (after[1]?).bind (pairTime ref)
    fuelSurcharge := 0
    distance :=
      match after[0]?, after[1]? with
      | some p1, some p2 => legDistance tags p1.pos p2.pos
      | _, _ => none
    assignedDriver := none }

/-- Modelled from the spec: §4.3 edge case — with no SequenceMarker but a
single pickup/dropoff pair, one implicit leg with sequence_index 0
mirroring the trip-level pickup/dropoff. -/
def implicitLeg (ref : RefDate) (tid : String) (tags : List (Nat × Tag))
    (pairs : List FDPair) : Leg :=
  { legId := legIdOf tid 0
    seqIndex := 0
    pickupFac := (pairs[0]?).map (fun p => p.facilityText)
    dropoffFac := (pairs[1]?).map (fun p => p.facilityText)
    pickupAddr := (pairs[0]?).bind (fun p => addressOf p.facilityText)
    dropoffAddr := (pairs[1]?).bind (fun p => addressOf p.facilityText)
    pickupTime := (pairs[0]?).bind (pairTime ref)
    dropoffTime := (pairs[1]?).bind (pairTime ref)
    fuelSurcharge := 0
    distance :=
      match pairs[0]?, pairs[1]? with
      | some p1, some p2 => legDistance tags p1.pos p2.pos
      | _, _ => none
    assignedDriver := none }

/-- Modelled from the spec: §4.3 Leg Segmenter. -/
def segmentLegs (ref : RefDate) (tid : String) (tags : List (Nat × Tag)) : List Leg :=
  if markersOf tags = [] then
    if (pairsOf tags).length = 2 then [implicitLeg ref tid tags (pairsOf tags)]
    else []
  else
    (markersOf tags).map
      (fun m => mkLegFromMarker ref tid tags (pairsOf tags) m.1 m.2)

/-- Modelled from the spec: §3 TripHeader. -/
structure TripHeader where
  tripId : String
  pickupFacility : Option String
  dropoffFacility : Option String
  pickupAddress : Option String
  dropoffAddress : Option String
  startTime : Option Timestamp
  endTime : Option Timestamp
  rate : Option ℚ
  ratePerMile : Option ℚ
  distance : Option ℚ
  assignedDriver : Option String
  trailerType : Option String
  loadType : Option String
deriving DecidableEq

/-- Modelled from the spec: §3 ParsedLoad — one header plus ordered legs. -/
structure ParsedLoad where
  header : TripHeader
  legs : List Leg
deriving DecidableEq

/-- A field-level diagnostic entry (§6 diagnostics channel). -/
structure Diag where
  fieldName : String
  reason : String
deriving DecidableEq

/-- Structured fatal error naming the missing field (§7). -/
structure ParseError where
  missingField : String
  message : String
deriving DecidableEq

/-- First classified TripId of the stream. -/
def firstTripId (tags : List (Nat × Tag)) : Option String :=
  (tags.filterMap (fun it =>
    match it.2 with
    | .tripId v => some v
    | _ => none)).head?

/-- All successfully normalized money tokens of the stream. -/
def moneysOf (tags : List (Nat × Tag)) : List Money :=
  tags.filterMap (fun it =>
    match it.2 with
    | .moneyTag _ (some m) => some m
    | _ => none)

/-- First plain rate (money without the `/mi` marker). -/
def firstRate (tags : List (Nat × Tag)) : Option ℚ :=
  (((moneysOf tags).filter (fun m => !m.perMile)).head?).map (fun m => m.amount)

/-- First per-mile rate (money with the `/mi` marker). -/
def firstRpm (tags : List (Nat × Tag)) : Option ℚ :=
  (((moneysOf tags).filter (fun m => m.perMile)).head?).map (fun m => m.amount)

/-- First classified Distance of the stream. -/
def firstDistance (tags : List (Nat × Tag)) : Option ℚ :=
  ((tags.filterMap (fun it =>
    match it.2 with
    | .distanceTag q => some q
    | _ => none))).head?

/-- First classified TrailerSpec of the stream. -/
def firstTrailer (tags : List (Nat × Tag)) : Option String :=
  ((tags.filterMap (fun it =>
    match it.2 with
    | .trailerTag v => some v
    | _ => none))).head?

/-- First classified LoadTypeKeyword of the stream. -/
def firstLoadType (tags : List (Nat × Tag)) : Option String :=
  ((tags.filterMap (fun it =>
    match it.2 with
    | .loadTypeTag v => some v
    | _ => none))).head?

/-- All successfully normalized DateTime parts of the stream, in order. -/
def dateTimesOf (tags : List (Nat × Tag)) : List DateParts :=
  tags.filterMap (fun it =>
    match it.2 with
    | .dateTimeTag _ (some p) => some p
    | _ => none)

/-- Modelled from the spec: §4.2 DriverName — `Initial(s)` word shape. -/
def isInitial (w : List Char) : Bool :=
  match w.reverse with
  | c :: rest => c = '.' && !rest.isEmpty && rest.all Char.isAlpha
      && decide (rest.length ≤ 2)
  | [] => false

/-- Shape test for `Initial(s). Surname`. -/
def driverNameCheck (s : String) : Bool :=
  let ws := splitOnChar ' ' s.toList
  match ws.getLast?, ws.dropLast with
  | some last, inits =>
    !inits.isEmpty && inits.all isInitial && !last.isEmpty
      && last.all Char.isAlpha
  | none, _ => false

/-- Modelled from the spec: the assigned driver is the last unclassified
line of `Initial(s). Surname` shape. -/
def findDriver (tags : List (Nat × Tag)) : Option String :=
  ((tags.filterMap (fun it =>
    match it.2 with
    | .unclassified s => if driverNameCheck s then some s else none
    | _ => none))).getLast?

/-- Soft-error diagnostics: shape-matched lines whose normalization failed
leave the field null and append an entry (§7). -/
def softDiags (tags : List (Nat × Tag)) : List Diag :=
  tags.filterMap (fun it =>
    match it.2 with
    | .dateTimeTag raw none => some ⟨"time", "unparseable date: " ++ raw⟩
    | .moneyTag raw none => some ⟨"rate", "unparseable money: " ++ raw⟩
    | _ => none)

/-- Year-inference diagnostics: one entry per normalized timestamp, since
the year is always inferred (§4.4 heuristic flag). -/
def yearDiags (tags : List (Nat × Tag)) : List Diag :=
  tags.filterMap (fun it =>
    match it.2 with
    | .dateTimeTag raw (some _) => some ⟨"time", "year inferred: " ++ raw⟩
    | _ => none)

/-- All diagnostics surfaced alongside a successful parse. -/
def allDiags (tags : List (Nat × Tag)) : List Diag :=
  softDiags tags ++ yearDiags tags

/-- Modelled from the spec: §4.5 — merge trip-level classified/normalized
fields; trip pickup/dropoff come from the first and last pair. -/
def buildHeader (ref : RefDate) (tid : String) (tags : List (Nat × Tag)) :
    TripHeader :=
  let pairs := pairsOf tags
  let dts := dateTimesOf tags
  { tripId := tid
    pickupFacility := (pairs[0]?).map (fun p => p.facilityText)
    dropoffFacility :=
      if 2 ≤ pairs.length then (pairs.getLast?).map (fun p => p.facilityText)
      else none
    pickupAddress := (pairs[0]?).bind (fun p => addressOf p.facilityText)
    dropoffAddress :=
      if 2 ≤ pairs.length then (pairs.getLast?).bind (fun p => addressOf p.facilityText)
      else none
    startTime := (dts.head?).map (fun p => (mkTimestamp ref p).1)
    endTime := (dts.getLast?).map (fun p => (mkTimestamp ref p).1)
    rate := firstRate tags
    ratePerMile := firstRpm tags
    distance := firstDistance tags
    assignedDriver := findDriver tags
    trailerType := firstTrailer tags
    loadType := firstLoadType tags }

/-- `a` if present, else `b` (never overwrite a classified value, §4.5). -/
def keepOr (a b : Option α) : Option α :=
  match a with
  | some x => some x
  | none => b

/-- Modelled from the spec: §4.5 backfill — copy missing trip-level
pickup/dropoff facility and address from leg[0] / leg[last]; derive a
missing rate_per_mile as rate / distance and a missing rate as
rate_per_mile × distance; never overwrite directly classified values. -/
def backfill (h : TripHeader) (legs : List Leg) : TripHeader :=
  { h with
    pickupFacility := keepOr h.pickupFacility ((legs.head?).bind (fun l => l.pickupFac))
    dropoffFacility := keepOr h.dropoffFacility ((legs.getLast?).bind (fun l => l.dropoffFac))
    pickupAddress := keepOr h.pickupAddress ((legs.head?).bind (fun l => l.pickupAddr))
    dropoffAddress := keepOr h.dropoffAddress ((legs.getLast?).bind (fun l => l.dropoffAddr))
    rate :=
      match h.rate, h.ratePerMile, h.distance with
      | none, some rpm, some d => some (rpm * d)
      | r, _, _ => r
    ratePerMile :=
      match h.ratePerMile, h.rate, h.distance with
      | none, some r, some d => some (r / d)
      | rpm, _, _ => rpm }

/-- Modelled from the spec: the complete parsing pipeline (§2, §7): tokenize,
classify, check the fatal conditions, segment legs, assemble, backfill. -/
def parseLoad (ref : RefDate) (input : String) :
    Except ParseError (ParsedLoad × List Diag) :=
  if tokenize input = [] then .error ⟨"input", "empty input"⟩
  else
    match firstTripId (tagsOfText input) with
    | none => .error ⟨"trip_id", "no trip id found"⟩
    | some tid =>
      if segmentLegs ref tid (tagsOfText input) = [] then
        .error ⟨"legs", "no legs recognized"⟩
      else
        .ok (⟨backfill (buildHeader ref tid (tagsOfText input))
                (segmentLegs ref tid (tagsOfText input)),
              segmentLegs ref tid (tagsOfText input)⟩,
             allDiags (tagsOfText input))

/-! ## The golden posting of §8 and its parse -/

/-- Reference date used for the golden input (the posting is from May). -/
def refGolden : RefDate := ⟨2025, 5, 1⟩

/-- The §8 golden load posting, byte for byte. -/
def goldenText : String :=
  "T-115CSXYJM\n\nSpot\n\n1\n\nDCA2 Eastvale, California 91752\n\nSun, May 18, 05:28 PDT\n\n3\n\nSBD1 Bloomington, CA 92316\n\nSun, May 18, 15:38 PDT\n342 mi\n\n10h 41m\n53"
    ++ aposStr
    ++ " Trailer\n\nP\n\nDrop/Live\n\n$1 019,44\n\n$2.98/mi\n\nP. Sementeyev"

/-- The golden pickup facility line. -/
def goldenPickup : String := "DCA2 Eastvale, California 91752"

/-- The golden dropoff facility line. -/
def goldenDropoff : String := "SBD1 Bloomington, CA 92316"

/-- The golden pickup timestamp (§8: offset −07:00). -/
def goldenStart : Timestamp := ⟨2025, 5, 18, 5, 28, -420⟩

/-- The golden dropoff timestamp. -/
def goldenEnd : Timestamp := ⟨2025, 5, 18, 15, 38, -420⟩

/-- The leg opened by marker `1`: covers the golden pickup/dropoff pair. -/
def goldenLeg1 : Leg :=
  ⟨"T-115CSXYJM-L1", 1, some goldenPickup, some goldenDropoff,
   some "Eastvale, California 91752", some "Bloomington, CA 92316",
   some goldenStart, some goldenEnd, 0, none, none⟩

/-- The leg opened by marker `3`: starts at the dropoff, no further stop. -/
def goldenLeg3 : Leg :=
  ⟨"T-115CSXYJM-L3", 3, some goldenDropoff, none,
   some "Bloomington, CA 92316", none,
   some goldenEnd, none, 0, none, none⟩

/-- The assembled golden trip header. -/
def goldenHeader : TripHeader :=
  ⟨"T-115CSXYJM", some goldenPickup, some goldenDropoff,
   some "Eastvale, California 91752", some "Bloomington, CA 92316",
   some goldenStart, some goldenEnd,
   some (mkRat 101944 100), some (mkRat 298 100), some 342,
   some "P. Sementeyev", some ("53" ++ aposStr ++ " Trailer"), some "Spot"⟩

/-- The full golden parse result. -/
def goldenLoad : ParsedLoad := ⟨goldenHeader, [goldenLeg1, goldenLeg3]⟩

/-- The diagnostics surfaced for the golden input (year inference, §4.4). -/
def goldenDiags : List Diag :=
  [⟨"time", "year inferred: Sun, May 18, 05:28 PDT"⟩,
   ⟨"time", "year inferred: Sun, May 18, 15:38 PDT"⟩]

/-- The golden posting parses to exactly the golden result. -/
theorem goldenParse_eq :
    parseLoad refGolden goldenText = .ok (goldenLoad, goldenDiags) := rfl

/-- The golden rate in lowest terms is the decimal 1019.44. -/
theorem goldenRate_eq : mkRat 101944 100 = (1019.44 : ℚ) := by
  rw [Rat.mkRat_eq_div]
  norm_num

/-- The golden rate-per-mile in lowest terms is the decimal 2.98. -/
theorem goldenRpm_eq : mkRat 298 100 = (2.98 : ℚ) := by
  rw [Rat.mkRat_eq_div]
  norm_num

/-- C1: For the golden input text of the spec, the parser succeeds and
returns trip_id `T-115CSXYJM`, distance 342, rate 1019.44, rate_per_mile
2.98, assigned_driver `P. Sementeyev`, pickup_facility
`DCA2 Eastvale, California 91752`, dropoff_facility
`SBD1 Bloomington, CA 92316`, and a leg list containing at least one leg
whose pickup is that pickup facility and whose dropoff is that dropoff
facility. -/
theorem c1_golden_parse :
    ∃ pl ds, parseLoad refGolden goldenText = .ok (pl, ds) ∧
      pl.header.tripId = "T-115CSXYJM" ∧
      pl.header.distance = some (342 : ℚ) ∧
      pl.header.rate = some (1019.44 : ℚ) ∧
      pl.header.ratePerMile = some (2.98 : ℚ) ∧
      pl.header.assignedDriver = some "P. Sementeyev" ∧
      pl.header.pickupFacility = some goldenPickup ∧
      pl.header.dropoffFacility = some goldenDropoff ∧
      ∃ l ∈ pl.legs,
        l.pickupFac = some goldenPickup ∧ l.dropoffFac = some goldenDropoff := by
  refine ⟨goldenLoad, goldenDiags, goldenParse_eq, rfl, rfl, ?_, ?_, rfl, rfl,
    rfl, goldenLeg1, ?_, rfl, rfl⟩
  · exact congrArg some goldenRate_eq
  · exact congrArg some goldenRpm_eq
  · exact List.mem_cons_self goldenLeg1 [goldenLeg3]

/-- The per-mile marker of `stripPerMile` is exactly the `/mi` suffix test. -/
theorem stripPerMile_marker (l : List Char) :
    (stripPerMile l).2 = endsWithChars ['/', 'm', 'i'] l := by
  unfold stripPerMile
  by_cases h : endsWithChars ['/', 'm', 'i'] l = true
  · simp [h]
  · simp [eq_false_of_ne_true h]

/-- C2: Money normalization distinguishes its two dialects from the literal
string alone: dialect (a) — space-grouped thousands with comma decimal —
applies exactly when the digits contain an internal space and end with a
comma-and-two-digits suffix; every other token takes its rightmost `.` as
the decimal point; a trailing `/mi` marks the value as rate-per-mile.  In
particular `$1 019,44` normalizes to 1019.44 and `$2.98/mi` to
rate-per-mile 2.98. -/
theorem c2_money_dialects :
    parseMoneyLine "$1 019,44" = some ⟨(1019.44 : ℚ), false⟩ ∧
    parseMoneyLine "$2.98/mi" = some ⟨(2.98 : ℚ), true⟩ ∧
    (∀ l : List Char, parseMoneyBody l =
      if hasInternalSpace l && endsWithCommaTwoDigits l then spaceGroupedValue l
      else dotDecimalValue l) ∧
    (∀ l : List Char, (stripPerMile l).2 = endsWithChars ['/', 'm', 'i'] l) := by
  refine ⟨?_, ?_, fun l => rfl, stripPerMile_marker⟩
  · have h : parseMoneyLine "$1 019,44" = some ⟨mkRat 101944 100, false⟩ := rfl
    rw [h, goldenRate_eq]
  · have h : parseMoneyLine "$2.98/mi" = some ⟨mkRat 298 100, true⟩ := rfl
    rw [h, goldenRpm_eq]

/-! ## Error taxonomy (§7) -/

/-- An input whose first DateTime fragment is unparseable (unknown `XYZ`
timezone): the parse must still succeed, with the field null and a
diagnostic appended. -/
def softText : String :=
  "T-1X9\nAAA1 Foo, CA 90001\nSun, May 18, 05:28 XYZ\nBBB2 Bar, CA 90002\nSun, May 18, 15:38 PDT"

/-- The leg synthesized for `softText` (no markers, one pickup/dropoff
pair): its pickup time is null because normalization failed softly. -/
def softLeg : Leg :=
  ⟨"T-1X9-L0", 0, some "AAA1 Foo, CA 90001", some "BBB2 Bar, CA 90002",
   some "Foo, CA 90001", some "Bar, CA 90002",
   none, some goldenEnd, 0, none, none⟩

/-- The parsed result for `softText`. -/
def softLoad : ParsedLoad :=
  ⟨⟨"T-1X9", some "AAA1 Foo, CA 90001", some "BBB2 Bar, CA 90002",
    some "Foo, CA 90001", some "Bar, CA 90002",
    some goldenEnd, some goldenEnd, none, none, none, none, none, none⟩,
   [softLeg]⟩

/-- The diagnostics for `softText`: the soft failure plus year inference. -/
def softDiagList : List Diag :=
  [⟨"time", "unparseable date: Sun, May 18, 05:28 XYZ"⟩,
   ⟨"time", "year inferred: Sun, May 18, 15:38 PDT"⟩]

/-- The soft-failure input parses to exactly the expected result. -/
theorem softParse_eq :
    parseLoad refGolden softText = .ok (softLoad, softDiagList) := rfl

/-- C3: The parse aborts with a structured error naming the missing field
exactly when one of the three fatal conditions holds (empty input, no
TripId classified anywhere — named `trip_id` —, zero legs with no
implicit-leg fallback); every other input parses, and a soft field
failure leaves the field null and appends a diagnostic while parsing
continues (demonstrated on `softText`). -/
theorem c3_error_taxonomy :
    (∀ (ref : RefDate) (t : String),
      (parseLoad ref t = .error ⟨"input", "empty input"⟩ ↔ tokenize t = []) ∧
      (parseLoad ref t = .error ⟨"trip_id", "no trip id found"⟩ ↔
        (tokenize t ≠ [] ∧ firstTripId (tagsOfText t) = none)) ∧
      (parseLoad ref t = .error ⟨"legs", "no legs recognized"⟩ ↔
        (tokenize t ≠ [] ∧ ∃ tid, firstTripId (tagsOfText t) = some tid ∧
          segmentLegs ref tid (tagsOfText t) = [])) ∧
      ((∃ pl ds, parseLoad ref t = .ok (pl, ds)) ↔
        ¬(tokenize t = [] ∨ firstTripId (tagsOfText t) = none ∨
          ∃ tid, firstTripId (tagsOfText t) = some tid ∧
            segmentLegs ref tid (tagsOfText t) = []))) ∧
    (∃ pl ds, parseLoad refGolden softText = .ok (pl, ds) ∧
      (∃ l ∈ pl.legs, l.pickupTime = none) ∧
      Diag.mk "time" "unparseable date: Sun, May 18, 05:28 XYZ" ∈ ds) := by
  constructor
  · intro ref t
    rcases htok : tokenize t with _ | ⟨l0, ls⟩
    · have hp : parseLoad ref t = .error ⟨"input", "empty input"⟩ := by
        unfold parseLoad
        rw [htok]
        rfl
      simp [hp, htok]
    · rcases htid : firstTripId (tagsOfText t) with _ | tid
      · have hp : parseLoad ref t = .error ⟨"trip_id", "no trip id found"⟩ := by
          unfold parseLoad
          rw [htok, htid]
          simp
        simp [hp, htok, htid]
      · rcases hlegs : segmentLegs ref tid (tagsOfText t) with _ | ⟨lg, lgs⟩
        · have hp : parseLoad ref t = .error ⟨"legs", "no legs recognized"⟩ := by
            unfold parseLoad
            rw [htok, htid]
            simp [hlegs]
          simp [hp, htok, htid, hlegs]
        · have hp : parseLoad ref t = .ok
              (⟨backfill (buildHeader ref tid (tagsOfText t)) (lg :: lgs), lg :: lgs⟩,
               allDiags (tagsOfText t)) := by
            unfold parseLoad
            rw [htok, htid]
            simp [hlegs]
          simp [hp, htok, htid, hlegs]
  · exact ⟨softLoad, softDiagList, softParse_eq,
      ⟨softLeg, List.mem_singleton.mpr rfl, rfl⟩, List.mem_cons_self _ _⟩

/-- C4: With N ≥ 1 SequenceMarker lines the Segmenter yields exactly N legs,
each taking its marker's own value as sequence_index, with non-null pickup
(resp. dropoff) exactly when the first (resp. second)
`Facility`+`DateTime` pair after the marker is present; with zero markers
and exactly one pickup/dropoff pair, exactly one implicit leg with
sequence_index 0 mirroring the trip-level pickup/dropoff is synthesized. -/
theorem c4_segmenter (ref : RefDate) (tid : String) (tags : List (Nat × Tag)) :
    (markersOf tags ≠ [] →
      (segmentLegs ref tid tags).length = (markersOf tags).length ∧
      ∀ i (hi : i < (markersOf tags).length),
        ∃ leg, (segmentLegs ref tid tags)[i]? = some leg ∧
          leg.seqIndex = ((markersOf tags).get ⟨i, hi⟩).2 ∧
          (leg.pickupFac ≠ none ↔
            pairsAfter (pairsOf tags) ((markersOf tags).get ⟨i, hi⟩).1 ≠ []) ∧
          (leg.dropoffFac ≠ none ↔
            2 ≤ (pairsAfter (pairsOf tags) ((markersOf tags).get ⟨i, hi⟩).1).length)) ∧
    (markersOf tags = [] ∧ (pairsOf tags).length = 2 →
      segmentLegs ref tid tags = [implicitLeg ref tid tags (pairsOf tags)] ∧
      (implicitLeg ref tid tags (pairsOf tags)).seqIndex = 0 ∧
      (implicitLeg ref tid tags (pairsOf tags)).pickupFac =
        (buildHeader ref tid tags).pickupFacility ∧
      (implicitLeg ref tid tags (pairsOf tags)).dropoffFac =
        (buildHeader ref tid tags).dropoffFacility) := by
  constructor
  · intro hms
    have hseg : segmentLegs ref tid tags =
        (markersOf tags).map
          (fun m => mkLegFromMarker ref tid tags (pairsOf tags) m.1 m.2) := by
      unfold segmentLegs
      simp [hms]
    constructor
    · rw [hseg, List.length_map]
    · intro i hi
      refine ⟨mkLegFromMarker ref tid tags (pairsOf tags)
        ((markersOf tags).get ⟨i, hi⟩).1 ((markersOf tags).get ⟨i, hi⟩).2,
        ?_, rfl, ?_, ?_⟩
      · rw [hseg]
        rw [List.getElem?_map]
        rw [List.getElem?_eq_getElem hi]
        rfl
      · show ((pairsAfter (pairsOf tags) _)[0]?).map (fun p => p.facilityText) ≠ none ↔ _
        rcases hx : pairsAfter (pairsOf tags) ((markersOf tags).get ⟨i, hi⟩).1 with _ | ⟨a, as⟩
        · simp [hx]
        · simp [hx]
      · show ((pairsAfter (pairsOf tags) _)[1]?).map (fun p => p.facilityText) ≠ none ↔ _
        rcases hx : pairsAfter (pairsOf tags) ((markersOf tags).get ⟨i, hi⟩).1
          with _ | ⟨a, _ | ⟨b, rest⟩⟩
        · simp [hx]
        · simp [hx]
        · simp [hx]
  · rintro ⟨hms, hp⟩
    have hseg : segmentLegs ref tid tags = [implicitLeg ref tid tags (pairsOf tags)] := by
      unfold segmentLegs
      simp [hms, hp]
    refine ⟨hseg, rfl, rfl, ?_⟩
    rcases List.length_eq_two.mp hp with ⟨a, b, hab⟩
    show (((pairsOf tags))[1]?).map (fun p => p.facilityText) = _
    unfold buildHeader
    rw [hab]
    simp

/-- Witness for C4: the golden posting (two markers) exercises the marker
branch; the soft-failure posting (no markers, one pickup/dropoff pair)
exercises the implicit-leg branch. -/
theorem c4_segmenter_witness :
    (segmentLegs refGolden "T-115CSXYJM" (tagsOfText goldenText)).length =
      (markersOf (tagsOfText goldenText)).length ∧
    segmentLegs refGolden "T-1X9" (tagsOfText softText) =
      [implicitLeg refGolden "T-1X9" (tagsOfText softText)
        (pairsOf (tagsOfText softText))] := by
  constructor
  · exact ((c4_segmenter refGolden "T-115CSXYJM" (tagsOfText goldenText)).1
      (by decide)).1
  · exact ((c4_segmenter refGolden "T-1X9" (tagsOfText softText)).2
      ⟨by decide, by decide⟩).1

/-! ## Provenance of classified values, for the ParsedLoad invariants -/

/-- Inversion for `if c then some a else none = some q`. -/
theorem ifSome_inv {c : Prop} [Decidable c] {α : Type} {a q : α}
    (h : (if c then some a else none) = some q) : a = q := by
  by_cases hc : c
  · rw [if_pos hc] at h
    injection h
  · rw [if_neg hc] at h
    cases h

/-- `mkRat` of a non-negative numerator is non-negative. -/
theorem mkRat_nonneg_ofNum {n : Int} (hn : 0 ≤ n) (d : Nat) : 0 ≤ mkRat n d := by
  rw [Rat.mkRat_eq_div]
  apply div_nonneg
  · exact_mod_cast hn
  · exact_mod_cast Nat.zero_le d

/-- Dialect (a) only produces non-negative amounts. -/
theorem spaceGroupedValue_nonneg {l : List Char} {q : ℚ}
    (h : spaceGroupedValue l = some q) : 0 ≤ q := by
  unfold spaceGroupedValue at h
  rcases hsp : splitLastAux ',' l with _ | ⟨bef, aft⟩ <;> simp only [hsp] at h
  · cases h
  · have hq := ifSome_inv h
    subst hq
    apply mkRat_nonneg_ofNum
    positivity

/-- Dialect (b) only produces non-negative amounts. -/
theorem dotDecimalValue_nonneg {l : List Char} {q : ℚ}
    (h : dotDecimalValue l = some q) : 0 ≤ q := by
  unfold dotDecimalValue at h
  rcases hsp : splitLastAux '.' l with _ | ⟨bef, aft⟩ <;> simp only [hsp] at h
  · have hq := ifSome_inv h
    subst hq
    exact Nat.cast_nonneg _
  · have hq := ifSome_inv h
    subst hq
    apply mkRat_nonneg_ofNum
    positivity

/-- Money normalization only produces non-negative amounts. -/
theorem parseMoneyBody_nonneg {l : List Char} {q : ℚ}
    (h : parseMoneyBody l = some q) : 0 ≤ q := by
  unfold parseMoneyBody at h
  split at h
  · exact spaceGroupedValue_nonneg h
  · exact dotDecimalValue_nonneg h

/-- A classified money line carries a non-negative amount. -/
theorem parseMoneyLine_nonneg {s : String} {m : Money}
    (h : parseMoneyLine s = some m) : 0 ≤ m.amount := by
  unfold parseMoneyLine at h
  split at h
  · rcases hq : parseMoneyBody (stripPerMile _).1 with _ | q <;> rw [hq] at h
    · exact absurd h (by simp)
    · injection h with h
      subst h
      exact parseMoneyBody_nonneg hq
  · exact absurd h (by simp)

/-- A classified distance is non-negative. -/
theorem distanceValue_nonneg {s : String} {q : ℚ}
    (h : distanceValue s = some q) : 0 ≤ q := by
  unfold distanceValue at h
  split at h
  · split at h
    · injection h with h
      subst h
      exact Nat.cast_nonneg _
    · exact absurd h (by simp)
  · exact absurd h (by simp)

/-- A normalized DateTime always takes its offset from the tz table. -/
theorem parseDateLine_offset {s : String} {p : DateParts}
    (h : parseDateLine s = some p) :
    ∃ tz, tzOffset tz = some p.tzOffsetMinutes := by
  unfold parseDateLine at h
  repeat' split at h
  all_goals simp_all
  subst h
  exact ⟨_, by assumption⟩

/-- A TripId tag is only produced from a line passing `tripIdCheck`. -/
theorem classifyLine_tripId_inv {s v : String} (h : classifyLine s = .tripId v) :
    v = s ∧ tripIdCheck s = true := by
  unfold classifyLine at h
  repeat' split at h
  all_goals simp_all

/-- A Money tag always carries the result of `parseMoneyLine`. -/
theorem classifyLine_money_inv {s raw : String} {om : Option Money}
    (h : classifyLine s = .moneyTag raw om) : om = parseMoneyLine s := by
  unfold classifyLine at h
  repeat' split at h
  all_goals simp_all
  rcases h with ⟨rfl, rfl⟩
  rfl

/-- A DateTime tag always carries the result of `parseDateLine`. -/
theorem classifyLine_dt_inv {s raw : String} {op : Option DateParts}
    (h : classifyLine s = .dateTimeTag raw op) : op = parseDateLine s := by
  unfold classifyLine at h
  repeat' split at h
  all_goals simp_all
  rcases h with ⟨rfl, rfl⟩
  rfl

/-- A Distance tag always carries the result of `distanceValue`. -/
theorem classifyLine_distance_inv {s : String} {q : ℚ}
    (h : classifyLine s = .distanceTag q) : distanceValue s = some q := by
  unfold classifyLine at h
  repeat' split at h
  all_goals simp_all

/-- A line passing `tripIdCheck` is non-empty. -/
theorem tripIdCheck_ne_empty {v : String} (h : tripIdCheck v = true) : v ≠ "" := by
  intro hv
  subst hv
  simp [tripIdCheck] at h

/-- Every tag of a classified stream comes from `classifyLine`. -/
theorem tagsOfText_wf {t : String} {it : Nat × Tag} (h : it ∈ tagsOfText t) :
    ∃ s, it.2 = classifyLine s := by
  unfold tagsOfText at h
  rcases List.mem_map.mp h with ⟨p, _, rfl⟩
  exact ⟨p.2, rfl⟩

/-- `head?` produces a member. -/
theorem head?_mem {α : Type} {l : List α} {a : α} (h : l.head? = some a) : a ∈ l := by
  cases l
  · cases h
  · injection h with h
    subst h
    exact List.mem_cons_self _ _

/-- `getLast?` produces a member. -/
theorem getLast?_mem {α : Type} {l : List α} {a : α} (h : l.getLast? = some a) :
    a ∈ l := by
  rw [List.getLast?_eq_head?_reverse] at h
  have := head?_mem h
  exact List.mem_reverse.mp this

/-- Every normalized money token in a classified stream is non-negative. -/
theorem moneysOf_nonneg {tags : List (Nat × Tag)} {m : Money}
    (wf : ∀ it ∈ tags, ∃ s, it.2 = classifyLine s) (hm : m ∈ moneysOf tags) :
    0 ≤ m.amount := by
  unfold moneysOf at hm
  rcases List.mem_filterMap.mp hm with ⟨it, hit, hf⟩
  rcases wf it hit with ⟨s, hs⟩
  rcases heq : it.2 with _ | _ | _ | _ | _ | _ | _ | ⟨raw, om⟩ | _ | _ <;>
    simp only [heq] at hf <;> try cases hf
  rcases om with _ | m2
  · cases hf
  · injection hf with hf
    subst hf
    rw [heq] at hs
    have hinv := classifyLine_money_inv hs.symm
    exact parseMoneyLine_nonneg hinv.symm

/-- The first classified rate is non-negative. -/
theorem firstRate_nonneg {tags : List (Nat × Tag)} {q : ℚ}
    (wf : ∀ it ∈ tags, ∃ s, it.2 = classifyLine s) (h : firstRate tags = some q) :
    0 ≤ q := by
  unfold firstRate at h
  rcases hh : ((moneysOf tags).filter (fun m => !m.perMile)).head? with _ | m <;>
    rw [hh] at h
  · cases h
  · injection h with h
    subst h
    exact moneysOf_nonneg wf (List.mem_of_mem_filter (head?_mem hh))

/-- The first classified rate-per-mile is non-negative. -/
theorem firstRpm_nonneg {tags : List (Nat × Tag)} {q : ℚ}
    (wf : ∀ it ∈ tags, ∃ s, it.2 = classifyLine s) (h : firstRpm tags = some q) :
    0 ≤ q := by
  unfold firstRpm at h
  rcases hh : ((moneysOf tags).filter (fun m => m.perMile)).head? with _ | m <;>
    rw [hh] at h
  · cases h
  · injection h with h
    subst h
    exact moneysOf_nonneg wf (List.mem_of_mem_filter (head?_mem hh))

/-- The first classified distance is non-negative. -/
theorem firstDistance_nonneg {tags : List (Nat × Tag)} {q : ℚ}
    (wf : ∀ it ∈ tags, ∃ s, it.2 = classifyLine s)
    (h : firstDistance tags = some q) : 0 ≤ q := by
  unfold firstDistance at h
  have hq := head?_mem h
  rcases List.mem_filterMap.mp hq with ⟨it, hit, hf⟩
  rcases wf it hit with ⟨s, hs⟩
  rcases heq : it.2 with _ | _ | _ | qq | _ | _ | _ | _ | _ | _ <;>
    simp only [heq] at hf <;> try cases hf
  rw [heq] at hs
  have hinv := classifyLine_distance_inv hs.symm
  exact distanceValue_nonneg hinv

/-- Every normalized DateTime of a stream takes its offset from the table. -/
theorem dateTimesOf_offset {tags : List (Nat × Tag)} {p : DateParts}
    (wf : ∀ it ∈ tags, ∃ s, it.2 = classifyLine s) (hp : p ∈ dateTimesOf tags) :
    ∃ tz, tzOffset tz = some p.tzOffsetMinutes := by
  unfold dateTimesOf at hp
  rcases List.mem_filterMap.mp hp with ⟨it, hit, hf⟩
  rcases wf it hit with ⟨s, hs⟩
  rcases heq : it.2 with _ | _ | ⟨raw, op⟩ | _ | _ | _ | _ | _ | _ | _ <;>
    simp only [heq] at hf <;> try cases hf
  rcases op with _ | p2
  · cases hf
  · injection hf with hf
    subst hf
    rw [heq] at hs
    have hinv := classifyLine_dt_inv hs.symm
    exact parseDateLine_offset hinv.symm

/-- A distance attached to a leg is non-negative. -/
theorem legDistance_nonneg {tags : List (Nat × Tag)} {a b : Nat} {q : ℚ}
    (wf : ∀ it ∈ tags, ∃ s, it.2 = classifyLine s)
    (h : legDistance tags a b = some q) : 0 ≤ q := by
  unfold legDistance at h
  have hq := head?_mem h
  rcases List.mem_filterMap.mp hq with ⟨it, hit, hf⟩
  rcases wf it hit with ⟨s, hs⟩
  rcases heq : it.2 with _ | _ | _ | qq | _ | _ | _ | _ | _ | _ <;>
    simp only [heq] at hf <;> try cases hf
  have hq2 := ifSome_inv hf
  subst hq2
  rw [heq] at hs
  have hinv := classifyLine_distance_inv hs.symm
  exact distanceValue_nonneg hinv



/-- Every pair time in a classified stream originates from a DateTime tag. -/
theorem pairsAux_timeParts {tags : List (Nat × Tag)} :
    ∀ {pend : Option (Nat × String)} {p : FDPair} {dp : DateParts},
      p ∈ pairsAux tags pend → p.timeParts = some dp →
      ∃ it ∈ tags, ∃ raw, it.2 = Tag.dateTimeTag raw (some dp) := by
  induction tags with
  | nil =>
    intro pend p dp hp hdp
    rcases pend with _ | ⟨i, f⟩ <;> simp [pairsAux] at hp
    subst hp
    cases hdp
  | cons hd tl ih =>
    intro pend p dp hp hdp
    rcases hd with ⟨j, t⟩
    rcases t with v | f2 | ⟨raw, parts⟩ | _ | _ | _ | _ | _ | _ | _ <;>
      rcases pend with _ | ⟨i, f⟩ <;> simp only [pairsAux] at hp
    all_goals
      try (obtain ⟨it, hit, raw2, h2⟩ := ih hp hdp;
           exact ⟨it, List.mem_cons_of_mem _ hit, raw2, h2⟩)
    · rcases List.mem_cons.mp hp with h1 | h1
      · subst h1
        cases hdp
      · obtain ⟨it, hit, raw2, h2⟩ := ih h1 hdp
        exact ⟨it, List.mem_cons_of_mem _ hit, raw2, h2⟩
    · rcases List.mem_cons.mp hp with h1 | h1
      · subst h1
        have hdp2 : parts = some dp := hdp
        exact ⟨(j, .dateTimeTag raw parts), List.mem_cons_self _ _, raw, by rw [hdp2]⟩
      · obtain ⟨it, hit, raw2, h2⟩ := ih h1 hdp
        exact ⟨it, List.mem_cons_of_mem _ hit, raw2, h2⟩



/-- `getElem?` produces a member. -/
theorem getElem?_mem {α : Type} {l : List α} {i : Nat} {a : α}
    (h : l[i]? = some a) : a ∈ l := by
  rcases List.getElem?_eq_some.mp h with ⟨hi, hget⟩
  subst hget
  exact List.getElem_mem hi

/-- Inversion of a successful parse into its pipeline pieces. -/
theorem parseLoad_ok_inv {ref : RefDate} {t : String} {pl : ParsedLoad}
    {ds : List Diag} (h : parseLoad ref t = .ok (pl, ds)) :
    ∃ tid, firstTripId (tagsOfText t) = some tid ∧
      segmentLegs ref tid (tagsOfText t) ≠ [] ∧
      pl.header = backfill (buildHeader ref tid (tagsOfText t))
        (segmentLegs ref tid (tagsOfText t)) ∧
      pl.legs = segmentLegs ref tid (tagsOfText t) ∧
      ds = allDiags (tagsOfText t) := by
  unfold parseLoad at h
  by_cases h0 : tokenize t = []
  · rw [if_pos h0] at h
    cases h
  · rw [if_neg h0] at h
    rcases htid : firstTripId (tagsOfText t) with _ | tid <;> simp only [htid] at h
    · cases h
    · by_cases hlegs : segmentLegs ref tid (tagsOfText t) = []
      · rw [if_pos hlegs] at h
        cases h
      · rw [if_neg hlegs] at h
        injection h with h1
        injection h1 with hpl hds
        exact ⟨tid, rfl, hlegs, by rw [← hpl], by rw [← hpl], hds.symm⟩

/-- A leg time built from a stream pair takes its offset from the table. -/
theorem bindPairTime_offset {ref : RefDate} {tags : List (Nat × Tag)}
    (wf : ∀ it ∈ tags, ∃ s, it.2 = classifyLine s)
    {op : Option FDPair} {ts : Timestamp}
    (hsub : ∀ pr, op = some pr → pr ∈ pairsOf tags)
    (h : op.bind (pairTime ref) = some ts) :
    ∃ tz, tzOffset tz = some ts.offsetMinutes := by
  rcases op with _ | pr
  · cases h
  · have hpt : pairTime ref pr = some ts := h
    unfold pairTime at hpt
    rcases htp : pr.timeParts with _ | dp <;> rw [htp] at hpt
    · cases hpt
    · injection hpt with hpt
      subst hpt
      rcases pairsAux_timeParts (hsub pr rfl) htp with ⟨it, hit, raw, h2⟩
      rcases wf it hit with ⟨s, hs⟩
      rw [h2] at hs
      have hinv := classifyLine_dt_inv hs.symm
      exact parseDateLine_offset hinv.symm

/-- Per-leg invariants: zero fuel surcharge default, non-negative distance,
and table offsets on all times. -/
theorem legOfSegment_facts {ref : RefDate} {tid : String} {tags : List (Nat × Tag)}
    (wf : ∀ it ∈ tags, ∃ s, it.2 = classifyLine s)
    {l : Leg} (hl : l ∈ segmentLegs ref tid tags) :
    l.fuelSurcharge = 0 ∧
    (∀ q, l.distance = some q → 0 ≤ q) ∧
    (∀ ts, l.pickupTime = some ts → ∃ tz, tzOffset tz = some ts.offsetMinutes) ∧
    (∀ ts, l.dropoffTime = some ts → ∃ tz, tzOffset tz = some ts.offsetMinutes) := by
  unfold segmentLegs at hl
  by_cases hms : markersOf tags = []
  · rw [if_pos hms] at hl
    by_cases hp2 : (pairsOf tags).length = 2
    · rw [if_pos hp2] at hl
      rcases List.mem_singleton.mp hl with rfl
      refine ⟨rfl, ?_, ?_, ?_⟩
      · intro q hq
        have hq2 : (match (pairsOf tags)[0]?, (pairsOf tags)[1]? with
            | some p1, some p2 => legDistance tags p1.pos p2.pos
            | _, _ => none) = some q := hq
        rcases h0 : (pairsOf tags)[0]? with _ | p1 <;>
          rcases h1 : (pairsOf tags)[1]? with _ | p2 <;>
          simp only [h0, h1] at hq2
        · cases hq2
        · cases hq2
        · cases hq2
        · exact legDistance_nonneg wf hq2
      · intro ts hts
        exact bindPairTime_offset wf (fun pr hpr => getElem?_mem hpr) hts
      · intro ts hts
        exact bindPairTime_offset wf (fun pr hpr => getElem?_mem hpr) hts
    · rw [if_neg hp2] at hl
      cases hl
  · rw [if_neg hms] at hl
    rcases List.mem_map.mp hl with ⟨m, hm, rfl⟩
    refine ⟨rfl, ?_, ?_, ?_⟩
    · intro q hq
      have hq2 : (match (pairsAfter (pairsOf tags) m.1)[0]?,
          (pairsAfter (pairsOf tags) m.1)[1]? with
          | some p1, some p2 => legDistance tags p1.pos p2.pos
          | _, _ => none) = some q := hq
      rcases h0 : (pairsAfter (pairsOf tags) m.1)[0]? with _ | p1 <;>
        rcases h1 : (pairsAfter (pairsOf tags) m.1)[1]? with _ | p2 <;>
        simp only [h0, h1] at hq2
      · cases hq2
      · cases hq2
      · cases hq2
      · exact legDistance_nonneg wf hq2
    · intro ts hts
      refine bindPairTime_offset wf (fun pr hpr => ?_) hts
      exact List.mem_of_mem_filter (getElem?_mem hpr)
    · intro ts hts
      refine bindPairTime_offset wf (fun pr hpr => ?_) hts
      exact List.mem_of_mem_filter (getElem?_mem hpr)



/-- A posting whose markers appear in descending order (3 then 1). -/
def descText : String :=
  "T-9Z1\n3\nAAA1 Foo, CA 90001\nSun, May 18, 05:28 PDT\n1\nBBB2 Bar, CA 90002\nSun, May 18, 15:38 PDT"

/-- A posting with a duplicated marker value (2 twice). -/
def dupText : String :=
  "T-9Z1\n2\nAAA1 Foo, CA 90001\nSun, May 18, 05:28 PDT\n2\nBBB2 Bar, CA 90002\nSun, May 18, 15:38 PDT"

/-- The sequence_index list of a parse result, `none` on a fatal error. -/
def legSeqs (r : Except ParseError (ParsedLoad × List Diag)) : Option (List Nat) :=
  match r with
  | .ok (pl, _) => some (pl.legs.map (fun l => l.seqIndex))
  | .error _ => none





/-- The classified trip id of a stream is never the empty string. -/
theorem firstTripId_ne_empty {tags : List (Nat × Tag)} {tid : String}
    (wf : ∀ it ∈ tags, ∃ s, it.2 = classifyLine s)
    (h : firstTripId tags = some tid) : tid ≠ "" := by
  unfold firstTripId at h
  have hm := head?_mem h
  rcases List.mem_filterMap.mp hm with ⟨it, hit, hf⟩
  rcases wf it hit with ⟨s, hs⟩
  rcases heq : it.2 with v | _ | _ | _ | _ | _ | _ | _ | _ | _ <;>
    simp only [heq] at hf <;> try cases hf
  rw [heq] at hs
  rcases classifyLine_tripId_inv hs.symm with ⟨rfl, hchk⟩
  exact tripIdCheck_ne_empty hchk

/-- The backfilled rate is the classified one or the derived product. -/
theorem backfill_rate_cases (h0 : TripHeader) (legs : List Leg) :
    (backfill h0 legs).rate = h0.rate ∨
    ∃ rpm d, h0.ratePerMile = some rpm ∧ h0.distance = some d ∧
      (backfill h0 legs).rate = some (rpm * d) := by
  have hb : (backfill h0 legs).rate =
      (match h0.rate, h0.ratePerMile, h0.distance with
       | none, some rpm, some d => some (rpm * d)
       | r, _, _ => r) := rfl
  rcases hr : h0.rate with _ | r <;> rcases hrpm : h0.ratePerMile with _ | rpm <;>
    rcases hd : h0.distance with _ | d <;> rw [hr, hrpm, hd] at hb
  · exact Or.inl (by rw [hb])
  · exact Or.inl (by rw [hb])
  · exact Or.inl (by rw [hb])
  · exact Or.inr ⟨rpm, d, rfl, rfl, hb⟩
  · exact Or.inl (by rw [hb])
  · exact Or.inl (by rw [hb])
  · exact Or.inl (by rw [hb])
  · exact Or.inl (by rw [hb])

/-- The backfilled rate-per-mile is the classified one or the quotient. -/
theorem backfill_rpm_cases (h0 : TripHeader) (legs : List Leg) :
    (backfill h0 legs).ratePerMile = h0.ratePerMile ∨
    ∃ r d, h0.rate = some r ∧ h0.distance = some d ∧
      (backfill h0 legs).ratePerMile = some (r / d) := by
  have hb : (backfill h0 legs).ratePerMile =
      (match h0.ratePerMile, h0.rate, h0.distance with
       | none, some r, some d => some (r / d)
       | rpm, _, _ => rpm) := rfl
  rcases hrpm : h0.ratePerMile with _ | rpm <;> rcases hr : h0.rate with _ | r <;>
    rcases hd : h0.distance with _ | d <;> rw [hrpm, hr, hd] at hb
  · exact Or.inl (by rw [hb])
  · exact Or.inl (by rw [hb])
  · exact Or.inl (by rw [hb])
  · exact Or.inr ⟨r, d, rfl, rfl, hb⟩
  · exact Or.inl (by rw [hb])
  · exact Or.inl (by rw [hb])
  · exact Or.inl (by rw [hb])
  · exact Or.inl (by rw [hb])

/-- A header time built from stream date parts takes a table offset. -/
theorem mapMkTs_offset {ref : RefDate} {tags : List (Nat × Tag)}
    (wf : ∀ it ∈ tags, ∃ s, it.2 = classifyLine s)
    {o : Option DateParts} {ts : Timestamp}
    (hmem : ∀ p, o = some p → p ∈ dateTimesOf tags)
    (h : o.map (fun p => (mkTimestamp ref p).1) = some ts) :
    ∃ tz, tzOffset tz = some ts.offsetMinutes := by
  rcases o with _ | p
  · cases h
  · injection h with h
    subst h
    exact dateTimesOf_offset wf (hmem p rfl)



/-- C5 (amended): every successful ParsedLoad has a non-empty trip_id and a
non-empty leg list whose order and sequence_index values are exactly the
source markers (or the single implicit index 0); all money and distance
fields present are ≥ 0 with leg fuel_surcharge 0; and every timestamp
present carries a UTC offset drawn from the timezone table.  The original
claim's ascending/unique/contiguous requirements are dropped: with
sequence_index pinned to the marker's own value (§4.3) they fail, see the
counterexample. -/
theorem c5_invariants (ref : RefDate) (t : String) (pl : ParsedLoad)
    (ds : List Diag) (h : parseLoad ref t = .ok (pl, ds)) :
    pl.header.tripId ≠ "" ∧
    pl.legs ≠ [] ∧
    (∀ q, pl.header.rate = some q → 0 ≤ q) ∧
    (∀ q, pl.header.ratePerMile = some q → 0 ≤ q) ∧
    (∀ q, pl.header.distance = some q → 0 ≤ q) ∧
    (∀ ts, pl.header.startTime = some ts → ∃ tz, tzOffset tz = some ts.offsetMinutes) ∧
    (∀ ts, pl.header.endTime = some ts → ∃ tz, tzOffset tz = some ts.offsetMinutes) ∧
    (∀ l ∈ pl.legs,
      l.fuelSurcharge = 0 ∧
      (∀ q, l.distance = some q → 0 ≤ q) ∧
      (∀ ts, l.pickupTime = some ts → ∃ tz, tzOffset tz = some ts.offsetMinutes) ∧
      (∀ ts, l.dropoffTime = some ts → ∃ tz, tzOffset tz = some ts.offsetMinutes)) ∧
    (pl.legs.map (fun l => l.seqIndex) =
        (markersOf (tagsOfText t)).map (fun m => m.2) ∨
      pl.legs.map (fun l => l.seqIndex) = [0]) := by
  rcases parseLoad_ok_inv h with ⟨tid, htid, hne, hhd, hlegs, _⟩
  have wf : ∀ it ∈ tagsOfText t, ∃ s, it.2 = classifyLine s :=
    fun it hit => tagsOfText_wf hit
  have hbhrate : (buildHeader ref tid (tagsOfText t)).rate =
      firstRate (tagsOfText t) := rfl
  have hbhrpm : (buildHeader ref tid (tagsOfText t)).ratePerMile =
      firstRpm (tagsOfText t) := rfl
  have hbhdist : (buildHeader ref tid (tagsOfText t)).distance =
      firstDistance (tagsOfText t) := rfl
  refine ⟨?_, ?_, ?_, ?_, ?_, ?_, ?_, ?_, ?_⟩
  · rw [hhd]
    show tid ≠ ""
    exact firstTripId_ne_empty wf htid
  · rw [hlegs]
    exact hne
  · intro q hq
    rw [hhd] at hq
    rcases backfill_rate_cases (buildHeader ref tid (tagsOfText t))
        (segmentLegs ref tid (tagsOfText t)) with hc | ⟨rpm, d, hrpm, hd, hc⟩
    · rw [hc, hbhrate] at hq
      exact firstRate_nonneg wf hq
    · rw [hc] at hq
      injection hq with hq
      subst hq
      rw [hbhrpm] at hrpm
      rw [hbhdist] at hd
      exact mul_nonneg (firstRpm_nonneg wf hrpm) (firstDistance_nonneg wf hd)
  · intro q hq
    rw [hhd] at hq
    rcases backfill_rpm_cases (buildHeader ref tid (tagsOfText t))
        (segmentLegs ref tid (tagsOfText t)) with hc | ⟨r, d, hr, hd, hc⟩
    · rw [hc, hbhrpm] at hq
      exact firstRpm_nonneg wf hq
    · rw [hc] at hq
      injection hq with hq
      subst hq
      rw [hbhrate] at hr
      rw [hbhdist] at hd
      exact div_nonneg (firstRate_nonneg wf hr) (firstDistance_nonneg wf hd)
  · intro q hq
    rw [hhd] at hq
    have hkeep : (backfill (buildHeader ref tid (tagsOfText t))
        (segmentLegs ref tid (tagsOfText t))).distance =
        firstDistance (tagsOfText t) := rfl
    rw [hkeep] at hq
    exact firstDistance_nonneg wf hq
  · intro ts hts
    rw [hhd] at hts
    have hkeep : (backfill (buildHeader ref tid (tagsOfText t))
        (segmentLegs ref tid (tagsOfText t))).startTime =
        ((dateTimesOf (tagsOfText t)).head?).map
          (fun p => (mkTimestamp ref p).1) := rfl
    rw [hkeep] at hts
    exact mapMkTs_offset wf (fun p hp => head?_mem hp) hts
  · intro ts hts
    rw [hhd] at hts
    have hkeep : (backfill (buildHeader ref tid (tagsOfText t))
        (segmentLegs ref tid (tagsOfText t))).endTime =
        ((dateTimesOf (tagsOfText t)).getLast?).map
          (fun p => (mkTimestamp ref p).1) := rfl
    rw [hkeep] at hts
    exact mapMkTs_offset wf (fun p hp => getLast?_mem hp) hts
  · intro l hl
    rw [hlegs] at hl
    exact legOfSegment_facts wf hl
  · rw [hlegs]
    unfold segmentLegs
    by_cases hms : markersOf (tagsOfText t) = []
    · rw [if_pos hms]
      by_cases hp2 : (pairsOf (tagsOfText t)).length = 2
      · rw [if_pos hp2]
        right
        rfl
      · exfalso
        apply hne
        unfold segmentLegs
        rw [if_pos hms, if_neg hp2]
    · rw [if_neg hms]
      left
      rw [List.map_map]
      rfl


/-- C5 fails as stated: the golden posting parses successfully with
sequence_index values [1, 3] (not contiguous); a descending-marker posting
yields [3, 1] (not ascending); a duplicated-marker posting yields [2, 2]
(not unique). -/
theorem c5_counterexample :
    (legSeqs (parseLoad refGolden goldenText) = some [1, 3] ∧
      ¬ List.Chain' (fun a b => b = a + 1) [1, 3]) ∧
    (legSeqs (parseLoad refGolden descText) = some [3, 1] ∧
      ¬ List.Sorted (· ≤ ·) [3, 1]) ∧
    (legSeqs (parseLoad refGolden dupText) = some [2, 2] ∧
      ¬ List.Nodup [2, 2]) := by
  refine ⟨⟨rfl, ?_⟩, ⟨rfl, ?_⟩, ⟨rfl, ?_⟩⟩
  · intro hch
    rw [List.chain'_cons] at hch
    exact absurd hch.1 (by decide)
  · intro hsort
    rw [List.sorted_cons] at hsort
    have := hsort.1 1 (List.mem_singleton.mpr rfl)
    omega
  · intro hdup
    rw [List.nodup_cons] at hdup
    exact hdup.1 (List.mem_singleton.mpr rfl)

/-- Witness for C5 (amended), instantiated on the golden posting. -/
theorem c5_invariants_witness :
    goldenLoad.header.tripId ≠ "" ∧ goldenLoad.legs ≠ [] := by
  have hinv := c5_invariants refGolden goldenText goldenLoad goldenDiags goldenParse_eq
  exact ⟨hinv.1, hinv.2.1⟩


/-- C6: `Sun, May 18, 05:28 PDT` normalizes to offset −07:00 (−420 minutes)
with month 5, day 18, hour 5, minute 28; the missing year is filled with the
reference year, rolled forward to the next year exactly when the candidate
date falls more than the slack window in the past (shown concretely for a
December reference date and a January posting); and a year-inference
diagnostic is surfaced for every normalized timestamp. -/
theorem c6_timestamp_normalization :
    parseDateLine "Sun, May 18, 05:28 PDT" = some ⟨5, 18, 5, 28, -420⟩ ∧
    mkTimestamp refGolden ⟨5, 18, 5, 28, -420⟩ =
      (⟨2025, 5, 18, 5, 28, -420⟩, false) ∧
    (∀ (ref : RefDate) (p : DateParts),
      ((mkTimestamp ref p).1).month = p.month ∧
      ((mkTimestamp ref p).1).day = p.day ∧
      ((mkTimestamp ref p).1).hour = p.hour ∧
      ((mkTimestamp ref p).1).minute = p.minute ∧
      ((mkTimestamp ref p).1).offsetMinutes = p.tzOffsetMinutes ∧
      (((mkTimestamp ref p).1).year = ref.year ∨
        ((mkTimestamp ref p).1).year = ref.year + 1) ∧
      (((mkTimestamp ref p).1).year = ref.year + 1 ↔
        dayNumber ref.year p.month p.day + slackDays <
          dayNumber ref.year ref.month ref.day)) ∧
    mkTimestamp ⟨2025, 12, 15⟩ ⟨1, 5, 3, 0, -480⟩ =
      (⟨2026, 1, 5, 3, 0, -480⟩, true) ∧
    (∀ (t : String) (i : Nat) (raw : String) (p : DateParts),
      (i, Tag.dateTimeTag raw (some p)) ∈ tagsOfText t →
      Diag.mk "time" ("year inferred: " ++ raw) ∈ allDiags (tagsOfText t)) := by
  refine ⟨rfl, rfl, ?_, rfl, ?_⟩
  · intro ref p
    by_cases hc : dayNumber ref.year p.month p.day + slackDays <
        dayNumber ref.year ref.month ref.day
    · refine ⟨rfl, rfl, rfl, rfl, rfl, ?_, ?_⟩
      · right
        show (inferYear ref p.month p.day).1 = ref.year + 1
        unfold inferYear
        rw [if_pos hc]
      · constructor
        · intro _
          exact hc
        · intro _
          show (inferYear ref p.month p.day).1 = ref.year + 1
          unfold inferYear
          rw [if_pos hc]
    · refine ⟨rfl, rfl, rfl, rfl, rfl, ?_, ?_⟩
      · left
        show (inferYear ref p.month p.day).1 = ref.year
        unfold inferYear
        rw [if_neg hc]
      · constructor
        · intro hy
          exfalso
          have hy2 : (inferYear ref p.month p.day).1 = ref.year + 1 := hy
          unfold inferYear at hy2
          rw [if_neg hc] at hy2
          omega
        · intro hcc
          exact absurd hcc hc
  · intro t i raw p hmem
    unfold allDiags
    apply List.mem_append_right
    unfold yearDiags
    apply List.mem_filterMap.mpr
    exact ⟨(i, .dateTimeTag raw (some p)), hmem, rfl⟩

/-- Witness for C6: the golden posting's first DateTime line yields the
year-inference diagnostic. -/
theorem c6_witness :
    Diag.mk "time" "year inferred: Sun, May 18, 05:28 PDT" ∈
      allDiags (tagsOfText goldenText) := by
  have h := c6_timestamp_normalization.2.2.2.2 goldenText 4
    "Sun, May 18, 05:28 PDT" ⟨5, 18, 5, 28, -420⟩ (by decide)
  exact h



/-- C7: with the reference date held constant the pipeline is a pure
function — two runs on identical input text produce identical ParsedLoad
results and identical diagnostics lists. -/
theorem c7_deterministic (ref : RefDate) (t1 t2 : String) (h : t1 = t2) :
    parseLoad ref t1 = parseLoad ref t2 := by rw [h]

/-- Witness for C7, instantiated on the golden posting. -/
theorem c7_witness :
    parseLoad refGolden goldenText = parseLoad refGolden goldenText :=
  c7_deterministic refGolden goldenText goldenText rfl

/-- C8: the Assembler backfills only missing values — trip-level
pickup/dropoff facility and address are copied from leg[0] / leg[last]
only when absent; rate_per_mile is derived as rate / distance (and rate as
rate_per_mile x distance) only when absent; every directly classified
value survives backfill unchanged (including all untouched fields). -/
theorem c8_backfill (h0 : TripHeader) (legs : List Leg) :
    ((h0.pickupFacility = none →
       (backfill h0 legs).pickupFacility = (legs.head?).bind (fun l => l.pickupFac)) ∧
     (∀ v, h0.pickupFacility = some v → (backfill h0 legs).pickupFacility = some v)) ∧
    ((h0.dropoffFacility = none →
       (backfill h0 legs).dropoffFacility =
         (legs.getLast?).bind (fun l => l.dropoffFac)) ∧
     (∀ v, h0.dropoffFacility = some v → (backfill h0 legs).dropoffFacility = some v)) ∧
    ((h0.pickupAddress = none →
       (backfill h0 legs).pickupAddress = (legs.head?).bind (fun l => l.pickupAddr)) ∧
     (∀ v, h0.pickupAddress = some v → (backfill h0 legs).pickupAddress = some v)) ∧
    ((h0.dropoffAddress = none →
       (backfill h0 legs).dropoffAddress =
         (legs.getLast?).bind (fun l => l.dropoffAddr)) ∧
     (∀ v, h0.dropoffAddress = some v → (backfill h0 legs).dropoffAddress = some v)) ∧
    ((∀ r d, h0.ratePerMile = none → h0.rate = some r → h0.distance = some d →
       (backfill h0 legs).ratePerMile = some (r / d)) ∧
     (∀ v, h0.ratePerMile = some v → (backfill h0 legs).ratePerMile = some v)) ∧
    ((∀ rpm d, h0.rate = none → h0.ratePerMile = some rpm → h0.distance = some d →
       (backfill h0 legs).rate = some (rpm * d)) ∧
     (∀ v, h0.rate = some v → (backfill h0 legs).rate = some v)) ∧
    ((backfill h0 legs).tripId = h0.tripId ∧
     (backfill h0 legs).startTime = h0.startTime ∧
     (backfill h0 legs).endTime = h0.endTime ∧
     (backfill h0 legs).distance = h0.distance ∧
     (backfill h0 legs).assignedDriver = h0.assignedDriver ∧
     (backfill h0 legs).trailerType = h0.trailerType ∧
     (backfill h0 legs).loadType = h0.loadType) := by
  refine ⟨⟨?_, ?_⟩, ⟨?_, ?_⟩, ⟨?_, ?_⟩, ⟨?_, ?_⟩, ⟨?_, ?_⟩, ⟨?_, ?_⟩,
    rfl, rfl, rfl, rfl, rfl, rfl, rfl⟩
  · intro hnone
    have hb : (backfill h0 legs).pickupFacility =
        keepOr h0.pickupFacility ((legs.head?).bind (fun l => l.pickupFac)) := rfl
    rw [hb, hnone]
    rfl
  · intro v hv
    have hb : (backfill h0 legs).pickupFacility =
        keepOr h0.pickupFacility ((legs.head?).bind (fun l => l.pickupFac)) := rfl
    rw [hb, hv]
    rfl
  · intro hnone
    have hb : (backfill h0 legs).dropoffFacility =
        keepOr h0.dropoffFacility ((legs.getLast?).bind (fun l => l.dropoffFac)) := rfl
    rw [hb, hnone]
    rfl
  · intro v hv
    have hb : (backfill h0 legs).dropoffFacility =
        keepOr h0.dropoffFacility ((legs.getLast?).bind (fun l => l.dropoffFac)) := rfl
    rw [hb, hv]
    rfl
  · intro hnone
    have hb : (backfill h0 legs).pickupAddress =
        keepOr h0.pickupAddress ((legs.head?).bind (fun l => l.pickupAddr)) := rfl
    rw [hb, hnone]
    rfl
  · intro v hv
    have hb : (backfill h0 legs).pickupAddress =
        keepOr h0.pickupAddress ((legs.head?).bind (fun l => l.pickupAddr)) := rfl
    rw [hb, hv]
    rfl
  · intro hnone
    have hb : (backfill h0 legs).dropoffAddress =
        keepOr h0.dropoffAddress ((legs.getLast?).bind (fun l => l.dropoffAddr)) := rfl
    rw [hb, hnone]
    rfl
  · intro v hv
    have hb : (backfill h0 legs).dropoffAddress =
        keepOr h0.dropoffAddress ((legs.getLast?).bind (fun l => l.dropoffAddr)) := rfl
    rw [hb, hv]
    rfl
  · intro r d hrpm hr hd
    have hb : (backfill h0 legs).ratePerMile =
        (match h0.ratePerMile, h0.rate, h0.distance with
         | none, some r, some d => some (r / d)
         | rpm, _, _ => rpm) := rfl
    rw [hrpm, hr, hd] at hb
    exact hb
  · intro v hv
    have hb : (backfill h0 legs).ratePerMile =
        (match h0.ratePerMile, h0.rate, h0.distance with
         | none, some r, some d => some (r / d)
         | rpm, _, _ => rpm) := rfl
    rw [hv] at hb
    exact hb
  · intro rpm d hr hrpm hd
    have hb : (backfill h0 legs).rate =
        (match h0.rate, h0.ratePerMile, h0.distance with
         | none, some rpm, some d => some (rpm * d)
         | r, _, _ => r) := rfl
    rw [hr, hrpm, hd] at hb
    exact hb
  · intro v hv
    have hb : (backfill h0 legs).rate =
        (match h0.rate, h0.ratePerMile, h0.distance with
         | none, some rpm, some d => some (rpm * d)
         | r, _, _ => r) := rfl
    rw [hv] at hb
    exact hb

/-- A header with pickup facility and rate-per-mile missing, for C8. -/
def c8Header : TripHeader :=
  ⟨"T-77A", none, none, none, none, none, none, some 100, none, some 50,
   none, none, none⟩

/-- Witness for C8: backfill copies the missing pickup facility from
leg[0], derives the missing rate-per-mile, and keeps the classified rate. -/
theorem c8_backfill_witness :
    (backfill c8Header [goldenLeg1]).pickupFacility = some goldenPickup ∧
    (backfill c8Header [goldenLeg1]).ratePerMile = some ((100 : ℚ) / 50) ∧
    (backfill c8Header [goldenLeg1]).rate = some 100 := by
  have h := c8_backfill c8Header [goldenLeg1]
  refine ⟨(h.1.1 rfl).trans rfl, ?_, h.2.2.2.2.2.1.2 100 rfl⟩
  exact h.2.2.2.2.1.1 100 50 rfl rfl rfl


end LoadParser

namespace Frontend

/-! ## Model of `formatNumber` (src/frontend/src/lib/utils.ts, lines 40-58)

JS numbers are modelled as exact rationals (every finite double is a
rational, and ECMAScript `toFixed` is defined on the double's exact value);
`null`/`undefined` inputs are collapsed into `Option`.  Per ECMAScript,
`toFixed` throws a RangeError for more than 100 fraction digits, and for a
magnitude of at least `10 ^ 21` it returns `ToString(x)` (exponential
notation) instead of a fixed-point string.
-/

/-- Decimal digit character for `n % 10`. -/
def digitChar (n : Nat) : Char := Char.ofNat (48 + n % 10)

/-- Little-endian base-10 digits with explicit fuel (kernel-reducible). -/
def natDigitsAux : Nat → Nat → List Nat
  | 0, _ => []
  | _ + 1, 0 => []
  | fuel + 1, n + 1 => (n + 1) % 10 :: natDigitsAux fuel ((n + 1) / 10)

/-- Little-endian base-10 digits of `n` (empty for 0). -/
def natDigitsLE (n : Nat) : List Nat := natDigitsAux n n

/-- `natDigitsLE` agrees with Mathlib's `Nat.digits 10`. -/
theorem natDigitsAux_eq :
    ∀ (fuel n : Nat), n ≤ fuel → natDigitsAux fuel n = Nat.digits 10 n := by
  intro fuel
  induction fuel with
  | zero =>
    intro n hn
    interval_cases n
    rw [Nat.digits_zero]
    rfl
  | succ fuel ih =>
    intro n hn
    cases n with
    | zero =>
      rw [Nat.digits_zero]
      rfl
    | succ m =>
      show (m + 1) % 10 :: natDigitsAux fuel ((m + 1) / 10) = _
      rw [ih ((m + 1) / 10) (by omega)]
      rw [Nat.digits_def' (by omega : 1 < 10) (Nat.succ_pos m)]

/-- `natDigitsLE` is `Nat.digits 10`. -/
theorem natDigitsLE_eq (n : Nat) : natDigitsLE n = Nat.digits 10 n :=
  natDigitsAux_eq n n le_rfl

/-- Big-endian digit characters of `n` (empty for 0). -/
def natDigitsBE (n : Nat) : List Char := ((natDigitsLE n).map digitChar).reverse

/-- Decimal rendering of a natural number. -/
def natToChars (n : Nat) : List Char := if n = 0 then ['0'] else natDigitsBE n

/-- Fraction digits of `n`, left-padded with zeros to exactly `d` digits. -/
def padFrac (d n : Nat) : List Char :=
  ((natDigitsLE n ++ List.replicate (d - (natDigitsLE n).length) 0).map
    digitChar).reverse

/-- `round(|x| * 10^d)` computed on the numerator/denominator directly
(half-up, as ECMAScript picks the larger candidate). -/
def fixedScaled (x : ℚ) (d : Nat) : Nat :=
  (2 * (x.num.natAbs * 10 ^ d) + x.den) / (2 * x.den)

/-- The chars of `Number.prototype.toFixed` for the exact value `x`. -/
def jsToFixedChars (x : ℚ) (d : Nat) : List Char :=
  (if x < 0 then ['-'] else []) ++ natToChars (fixedScaled x d / 10 ^ d)
    ++ (if d = 0 then [] else '.' :: padFrac d (fixedScaled x d % 10 ^ d))

/-- ECMAScript `Number::toString` on an integral magnitude of at least
`10 ^ 21` (every double of such magnitude exceeds `2 ^ 53` and is therefore
an integer, so in the exact-rational model this branch only ever applies to
integers): the significant digits with the trailing zeros stripped, a dot
after the first digit when more than one remains, then `e+` and the decimal
exponent. -/
def jsExpChars (n : Nat) : List Char :=
  match (((natDigitsLE n).dropWhile (fun k => k == 0)).map digitChar).reverse
      with
  | [] => ['0']
  | [c] => c :: 'e' :: '+' :: natToChars ((natDigitsLE n).length - 1)
  | c :: cs =>
    c :: '.' :: (cs ++ 'e' :: '+' :: natToChars ((natDigitsLE n).length - 1))

/-- `Number.prototype.toFixed`: a RangeError above 100 digits; at a magnitude
of at least `10 ^ 21` (the guard `10 ^ 21 * x.den ≤ x.num.natAbs` spells
`10 ^ 21 ≤ |x|` on the numerator and denominator, see `toFixedMagnitude_iff`)
the result is `ToString(x)` in exponential notation with the sign prepended;
otherwise the fixed-point string. -/
def jsToFixed (x : ℚ) (d : Nat) : Except String String :=
  if 100 < d then .error "RangeError"
  else if 10 ^ 21 * x.den ≤ x.num.natAbs then
    .ok (String.mk ((if x < 0 then ['-'] else []) ++ jsExpChars x.num.natAbs))
  else .ok (String.mk (jsToFixedChars x d))

/-- Split at the first decimal point. -/
def splitAtDot : List Char → List Char × Option (List Char)
  | [] => ([], none)
  | c :: cs =>
    if c = '.' then ([], some cs)
    else ((c :: (splitAtDot cs).1), (splitAtDot cs).2)

/-- Chunks of three, taken from the front (callers pass reversed digits). -/
def chunk3 : List Char → List (List Char)
  | [] => []
  | [a] => [[a]]
  | [a, b] => [[a, b]]
  | a :: b :: c :: rest => [a, b, c] :: chunk3 rest

/-- The groups an all-digit list falls into when cut from the right in
threes (a proof-side description of the comma grouping; `chunk3` runs over
the reversed digits). -/
def chunkGroups (l : List Char) : List (List Char) :=
  ((chunk3 l.reverse).map List.reverse).reverse

/-- Word characters of the regex engine (`\w`), which decide `\B`. -/
def isWordChar (c : Char) : Bool := c.isAlphanum || c = '_'

/-- Zero-width match of the regex `\B(?=(\d\x7b3\x7d)+(?!\d))` at an
internal position: `prev` is the character before the position and `l` the
suffix after it.  The lookahead requires a digit right after the position,
so `\B` (no word boundary) amounts to `prev` being a word character; the
lookahead `(\d\x7b3\x7d)+(?!\d)` consumes three-digit groups up to a
non-digit, i.e. exactly the maximal digit run, which must be a positive
multiple of three. -/
def commaHere (prev : Char) (l : List Char) : Bool :=
  match l with
  | [] => false
  | c :: rest => c.isDigit && isWordChar prev
      && ((c :: rest).takeWhile Char.isDigit).length % 3 == 0

/-- The replacement `replace(/\B(?=(\d\x7b3\x7d)+(?!\d))/g, ",")` from
position one onward (`prev` is the character before the current position). -/
def groupAux (prev : Char) : List Char → List Char
  | [] => []
  | c :: rest =>
    (if commaHere prev (c :: rest) then [','] else []) ++ c :: groupAux c rest

/-- Effect of the grouping regex on `parts[0]`.  Position zero never
matches: the lookahead needs a digit right there, which makes position zero
a word boundary, so `\B` fails. -/
def groupIntChars (l : List Char) : List Char :=
  match l with
  | [] => []
  | c :: rest => c :: groupAux c rest

/-- `parts = fixed.split("."); parts[0] grouped; parts.join(".")`. -/
def groupFixed (l : List Char) : List Char :=
  match splitAtDot l with
  | (ip, none) => groupIntChars ip
  | (ip, some fp) => groupIntChars ip ++ '.' :: fp

/-- Translated from `formatNumber` in src/frontend/src/lib/utils.ts:
null/undefined give the empty string, otherwise `toFixed(d)`, with the
integer part comma-grouped when `addCommas`. -/
def formatNumber (x : Option ℚ) (d : Nat) (addCommas : Bool) :
    Except String String :=
  match x with
  | none => .ok ""
  | some q =>
    match jsToFixed q d with
    | .error e => .error e
    | .ok fixed =>
      if addCommas then .ok (String.mk (groupFixed fixed.toList)) else .ok fixed

/-- Remove the grouping commas. -/
def stripCommas (l : List Char) : List Char := l.filter (fun c => c ≠ ',')

/-- The rational denoted by a fixed-point digit string (no sign). -/
def ratOfFixedAbs (l : List Char) : Option ℚ :=
  match splitAtDot l with
  | (ip, none) =>
    if ip ≠ [] && ip.all Char.isDigit then
      some (LoadParser.natOfDigits ip : ℚ)
    else none
  | (ip, some fp) =>
    if ip ≠ [] && ip.all Char.isDigit && fp.all Char.isDigit then
      some (mkRat (LoadParser.natOfDigits ip * 10 ^ fp.length
        + LoadParser.natOfDigits fp) (10 ^ fp.length))
    else none

/-- The rational denoted by a fixed-point string, sign included. -/
def ratOfFixed (l : List Char) : Option ℚ :=
  match l with
  | '-' :: rest => (ratOfFixedAbs rest).map (fun q => -q)
  | _ => ratOfFixedAbs l

/-- The exact value that the `toFixed` output denotes. -/
def fixedValue (x : ℚ) (d : Nat) : ℚ :=
  mkRat ((if x < 0 then -1 else 1) * (fixedScaled x d : Int)) (10 ^ d)

end Frontend

namespace Frontend

/-! ## Model of `apiRequest` (src/frontend/src/lib/api/client.ts, lines 43-67) -/

/-- The parts of an axios error `apiRequest` inspects:
`error.response?.data?.detail` (absent when there is no response, no data or
no detail) and `error.message`. -/
structure AxiosErrorModel where
  detail : Option String
  message : String
deriving DecidableEq

/-- Outcome of the underlying `apiClient` call. -/
inductive RequestOutcome where
  | success (body : String)
  | axiosFailure (e : AxiosErrorModel)
  | otherFailure (tag : String)
deriving DecidableEq

/-- What `apiRequest` throws: a fresh `Error` with a message, or the
original non-axios value rethrown unchanged. -/
inductive JsThrown where
  | jsError (msg : String)
  | raw (tag : String)
deriving DecidableEq

/-- JS `a || b` for an optional string `a`: an absent or empty (falsy)
string falls through to `b`. -/
def jsOrElse (a : Option String) (b : String) : String :=
  match a with
  | some s => if s = "" then b else s
  | none => b

/-- Translated from `apiRequest`: on success return `response.data`; on an
axios error throw `new Error(detail || message || "API request failed")`;
rethrow anything else unchanged. -/
def apiRequest : RequestOutcome → Except JsThrown String
  | .success body => .ok body
  | .axiosFailure e =>
    .error (.jsError (jsOrElse e.detail (jsOrElse (some e.message)
      "API request failed")))
  | .otherFailure t => .error (.raw t)

/-- C10 fails as stated: a defined but empty `detail` ("") is falsy under
JS `||`, so the code uses the axios message instead of the detail. -/
theorem c10_counterexample :
    ¬ (∀ (e : AxiosErrorModel) (s : String), e.detail = some s →
        apiRequest (.axiosFailure e) = .error (.jsError s)) := by
  intro hcl
  have h1 := hcl ⟨some "", "boom"⟩ "" rfl
  have h2 : apiRequest (.axiosFailure ⟨some "", "boom"⟩) =
      .error (.jsError "boom") := rfl
  rw [h2] at h1
  injection h1 with h3
  injection h3 with h4
  exact absurd h4 (by decide)

/-- C10 (amended): on an axios failure the thrown Error message is
`detail` when defined and non-empty, else the axios `message` when
non-empty, else the literal `API request failed`; a non-axios error is
rethrown unchanged; a success returns exactly the response body. -/
theorem c10_apiRequest (e : AxiosErrorModel) (body t : String) :
    apiRequest (.success body) = .ok body ∧
    apiRequest (.otherFailure t) = .error (.raw t) ∧
    (∀ s, e.detail = some s → s ≠ "" →
      apiRequest (.axiosFailure e) = .error (.jsError s)) ∧
    ((e.detail = none ∨ e.detail = some "") → e.message ≠ "" →
      apiRequest (.axiosFailure e) = .error (.jsError e.message)) ∧
    ((e.detail = none ∨ e.detail = some "") → e.message = "" →
      apiRequest (.axiosFailure e) = .error (.jsError "API request failed")) := by
  refine ⟨rfl, rfl, ?_, ?_, ?_⟩
  · intro s hs hne
    show Except.error (JsThrown.jsError (jsOrElse e.detail
        (jsOrElse (some e.message) "API request failed"))) =
      Except.error (JsThrown.jsError s)
    rw [hs]
    simp only [jsOrElse]
    rw [if_neg hne]
  · intro hd hmsg
    show Except.error (JsThrown.jsError (jsOrElse e.detail
        (jsOrElse (some e.message) "API request failed"))) =
      Except.error (JsThrown.jsError e.message)
    rcases hd with hd | hd <;> rw [hd] <;> simp only [jsOrElse]
    · rw [if_neg hmsg]
    · simp [hmsg]
  · intro hd hmsg
    show Except.error (JsThrown.jsError (jsOrElse e.detail
        (jsOrElse (some e.message) "API request failed"))) =
      Except.error (JsThrown.jsError "API request failed")
    rcases hd with hd | hd <;> rw [hd, hmsg] <;> simp only [jsOrElse]
    · simp
    · simp

/-- Witness for C10 (amended): all three message cases and the success and
rethrow cases at concrete values. -/
theorem c10_apiRequest_witness :
    apiRequest (.success "load-1") = .ok "load-1" ∧
    apiRequest (.otherFailure "TypeError") = .error (.raw "TypeError") ∧
    apiRequest (.axiosFailure ⟨some "not found", "st500"⟩) =
      .error (.jsError "not found") ∧
    apiRequest (.axiosFailure ⟨none, "net down"⟩) =
      .error (.jsError "net down") ∧
    apiRequest (.axiosFailure ⟨some "", ""⟩) =
      .error (.jsError "API request failed") := by
  refine ⟨(c10_apiRequest ⟨some "not found", "st500"⟩ "load-1" "TypeError").1,
    (c10_apiRequest ⟨some "not found", "st500"⟩ "load-1" "TypeError").2.1,
    (c10_apiRequest ⟨some "not found", "st500"⟩ "load-1" "TypeError").2.2.1
      "not found" rfl (by decide), ?_, ?_⟩
  · exact (c10_apiRequest ⟨none, "net down"⟩ "x" "y").2.2.2.1 (Or.inl rfl)
      (by decide)
  · exact (c10_apiRequest ⟨some "", ""⟩ "x" "y").2.2.2.2 (Or.inr rfl) rfl

end Frontend


namespace Frontend

/-- The character of a digit below ten satisfies `Char.isDigit`. -/
theorem digitChar_isDigit {k : Nat} (h : k < 10) : (digitChar k).isDigit = true := by
  interval_cases k <;> decide

/-- Code point of a digit character: 48 plus the digit. -/
theorem digitChar_toNat {k : Nat} (h : k < 10) : (digitChar k).toNat = 48 + k := by
  interval_cases k <;> decide

/-- A digit character is not the decimal point. -/
theorem isDigit_ne_dot {c : Char} (h : c.isDigit = true) : c ≠ '.' := by
  intro hc
  subst hc
  cases h

/-- A digit character is not a comma. -/
theorem isDigit_ne_comma {c : Char} (h : c.isDigit = true) : c ≠ ',' := by
  intro hc
  subst hc
  cases h

/-- A digit character is not a minus sign. -/
theorem isDigit_ne_minus {c : Char} (h : c.isDigit = true) : c ≠ '-' := by
  intro hc
  subst hc
  cases h

/-- Folding the reversed character rendering of a little-endian digit list recovers `Nat.ofDigits`. -/
theorem natOfDigits_rev_map (le : List Nat) (h : ∀ k ∈ le, k < 10) :
    LoadParser.natOfDigits ((le.map digitChar).reverse) = Nat.ofDigits 10 le := by
  induction le with
  | nil => rfl
  | cons x le ih =>
    have hx : x < 10 := h x (List.mem_cons_self _ _)
    have hle : ∀ k ∈ le, k < 10 := fun k hk => h k (List.mem_cons_of_mem _ hk)
    show LoadParser.natOfDigits (((x :: le).map digitChar).reverse) = _
    rw [List.map_cons, List.reverse_cons]
    unfold LoadParser.natOfDigits
    rw [List.foldl_append]
    have hfold : List.foldl (fun a c => a * 10 + (c.toNat - 48)) 0
        ((le.map digitChar).reverse) = Nat.ofDigits 10 le := ih hle
    show (List.foldl (fun a c => a * 10 + (c.toNat - 48)) 0
        ((le.map digitChar).reverse)) * 10 + ((digitChar x).toNat - 48) = _
    rw [hfold, digitChar_toNat hx, Nat.ofDigits_cons]
    omega

/-- Every character of `natToChars` is a decimal digit. -/
theorem natToChars_all_digit {n : Nat} : ∀ c ∈ natToChars n, c.isDigit = true := by
  intro c hc
  unfold natToChars at hc
  by_cases hn : n = 0
  · rw [if_pos hn] at hc
    rcases List.mem_singleton.mp hc with rfl
    decide
  · rw [if_neg hn] at hc
    unfold natDigitsBE at hc
    rw [List.mem_reverse, List.mem_map] at hc
    rcases hc with ⟨k, hk, rfl⟩
    rw [natDigitsLE_eq] at hk
    exact digitChar_isDigit (Nat.digits_lt_base (by omega) hk)

/-- Parsing the decimal rendering of `n` gives back `n`. -/
theorem natOfDigits_natToChars (n : Nat) :
    LoadParser.natOfDigits (natToChars n) = n := by
  unfold natToChars
  by_cases hn : n = 0
  · rw [if_pos hn, hn]
    rfl
  · rw [if_neg hn]
    unfold natDigitsBE
    rw [natDigitsLE_eq]
    rw [natOfDigits_rev_map _ (fun k hk => Nat.digits_lt_base (by omega) hk)]
    exact Nat.ofDigits_digits 10 n

/-- A block of zero digits contributes nothing to `Nat.ofDigits`. -/
theorem ofDigits_replicate_zero (k : Nat) :
    Nat.ofDigits 10 (List.replicate k 0) = 0 := by
  induction k with
  | zero => rfl
  | succ k ih =>
    rw [List.replicate_succ, Nat.ofDigits_cons, ih]

/-- The zero-padded fraction block has exactly `d` characters when `n < 10 ^ d`. -/
theorem padFrac_length {d n : Nat} (h : n < 10 ^ d) : (padFrac d n).length = d := by
  unfold padFrac
  rw [List.length_reverse, List.length_map, List.length_append,
    List.length_replicate]
  have hlen : (natDigitsLE n).length ≤ d := by
    rw [natDigitsLE_eq]
    by_cases hn : n = 0
    · subst hn
      simp
    · rw [Nat.digits_len 10 n (by omega) hn]
      have := Nat.log_lt_of_lt_pow hn h
      omega
  omega

/-- Every character of the padded fraction block is a decimal digit. -/
theorem padFrac_all_digit {d n : Nat} : ∀ c ∈ padFrac d n, c.isDigit = true := by
  intro c hc
  unfold padFrac at hc
  rw [List.mem_reverse, List.mem_map] at hc
  rcases hc with ⟨k, hk, rfl⟩
  rw [List.mem_append] at hk
  rcases hk with hk | hk
  · rw [natDigitsLE_eq] at hk
    exact digitChar_isDigit (Nat.digits_lt_base (by omega) hk)
  · rw [List.eq_of_mem_replicate hk]
    decide

/-- Parsing the padded fraction block gives back its value. -/
theorem natOfDigits_padFrac {d n : Nat} :
    LoadParser.natOfDigits (padFrac d n) = n := by
  unfold padFrac
  rw [natDigitsLE_eq]
  have hall : ∀ k ∈ Nat.digits 10 n ++
      List.replicate (d - (Nat.digits 10 n).length) 0, k < 10 := by
    intro k hk
    rw [List.mem_append] at hk
    rcases hk with hk | hk
    · exact Nat.digits_lt_base (by omega) hk
    · rw [List.eq_of_mem_replicate hk]
      omega
  rw [natOfDigits_rev_map _ hall, Nat.ofDigits_append, ofDigits_replicate_zero]
  rw [Nat.ofDigits_digits]
  ring

end Frontend

namespace Frontend

/-- A dot-free string is returned whole with no fraction part. -/
theorem splitAtDot_no_dot {l : List Char} (h : ∀ c ∈ l, c ≠ '.') :
    splitAtDot l = (l, none) := by
  induction l with
  | nil => rfl
  | cons c cs ih =>
    unfold splitAtDot
    rw [if_neg (h c (List.mem_cons_self _ _))]
    rw [ih (fun x hx => h x (List.mem_cons_of_mem _ hx))]

/-- Splitting at the first dot separates integer and fraction parts. -/
theorem splitAtDot_append {ip fp : List Char} (h : ∀ c ∈ ip, c ≠ '.') :
    splitAtDot (ip ++ '.' :: fp) = (ip, some fp) := by
  induction ip with
  | nil =>
    show splitAtDot ('.' :: fp) = ([], some fp)
    unfold splitAtDot
    rw [if_pos rfl]
  | cons c cs ih =>
    show splitAtDot (c :: (cs ++ '.' :: fp)) = (c :: cs, some fp)
    unfold splitAtDot
    rw [if_neg (h c (List.mem_cons_self _ _))]
    rw [ih (fun x hx => h x (List.mem_cons_of_mem _ hx))]

/-- The three-chunks of a list flatten back to the list. -/
theorem chunk3_flatten : ∀ l : List Char, (chunk3 l).flatten = l := by
  have H : ∀ (n : Nat) (l : List Char), l.length ≤ n → (chunk3 l).flatten = l := by
    intro n
    induction n with
    | zero =>
      intro l h
      have hl : l = [] := List.eq_nil_of_length_eq_zero (by omega)
      subst hl
      rfl
    | succ n ih =>
      intro l h
      rcases l with _ | ⟨a, _ | ⟨b, _ | ⟨c, rest⟩⟩⟩
      · rfl
      · rfl
      · rfl
      · show ([a, b, c] :: chunk3 rest).flatten = a :: b :: c :: rest
        rw [List.flatten_cons]
        rw [ih rest (by simp at h; omega)]
        rfl
  intro l
  exact H l.length l le_rfl

/-- Every three-chunk has between one and three elements. -/
theorem chunk3_mem_length : ∀ (l : List Char) (g : List Char), g ∈ chunk3 l →
    1 ≤ g.length ∧ g.length ≤ 3 := by
  have H : ∀ (n : Nat) (l g : List Char), l.length ≤ n → g ∈ chunk3 l →
      1 ≤ g.length ∧ g.length ≤ 3 := by
    intro n
    induction n with
    | zero =>
      intro l g h hm
      have hl : l = [] := List.eq_nil_of_length_eq_zero (by omega)
      subst hl
      cases hm
    | succ n ih =>
      intro l g h hm
      rcases l with _ | ⟨a, _ | ⟨b, _ | ⟨c, rest⟩⟩⟩
      · cases hm
      · rcases List.mem_singleton.mp hm with rfl
        constructor <;> simp
      · rcases List.mem_singleton.mp hm with rfl
        constructor <;> simp
      · rcases List.mem_cons.mp hm with rfl | hm2
        · constructor <;> simp
        · exact ih rest g (by simp at h; omega) hm2
  intro l g hm
  exact H l.length l g le_rfl hm

/-- Every three-chunk except possibly the last has exactly three elements. -/
theorem chunk3_dropLast_length : ∀ (l : List Char) (g : List Char),
    g ∈ (chunk3 l).dropLast → g.length = 3 := by
  have H : ∀ (n : Nat) (l g : List Char), l.length ≤ n →
      g ∈ (chunk3 l).dropLast → g.length = 3 := by
    intro n
    induction n with
    | zero =>
      intro l g h hm
      have hl : l = [] := List.eq_nil_of_length_eq_zero (by omega)
      subst hl
      cases hm
    | succ n ih =>
      intro l g h hm
      rcases l with _ | ⟨a, _ | ⟨b, _ | ⟨c, rest⟩⟩⟩
      · cases hm
      · cases hm
      · cases hm
      · have hm2 : g ∈ (([a, b, c] : List Char) :: chunk3 rest).dropLast := hm
        rcases hrest : chunk3 rest with _ | ⟨g2, gs⟩
        · rw [hrest] at hm2
          cases hm2
        · rw [hrest, List.dropLast_cons₂] at hm2
          rcases List.mem_cons.mp hm2 with rfl | hm3
          · rfl
          · rw [← hrest] at hm3
            exact ih rest g (by simp at h; omega) hm3
  intro l g hm
  exact H l.length l g le_rfl hm

/-- Removing commas from a comma-intercalated list of comma-free groups recovers the concatenation of the groups. -/
theorem stripCommas_intercalate : ∀ gs : List (List Char),
    (∀ g ∈ gs, ∀ c ∈ g, c ≠ ',') →
    stripCommas (List.intercalate [','] gs) = gs.flatten := by
  have H : ∀ (n : Nat) (gs : List (List Char)), gs.length ≤ n →
      (∀ g ∈ gs, ∀ c ∈ g, c ≠ ',') →
      stripCommas (List.intercalate [','] gs) = gs.flatten := by
    intro n
    induction n with
    | zero =>
      intro gs h hc
      have hl : gs = [] := List.eq_nil_of_length_eq_zero (by omega)
      subst hl
      rfl
    | succ n ih =>
      intro gs h hc
      rcases gs with _ | ⟨g, _ | ⟨g2, rest⟩⟩
      · rfl
      · show stripCommas (List.intercalate [','] [g]) = g ++ []
        unfold List.intercalate
        rw [List.intersperse_single, List.flatten_cons, List.flatten_nil]
        unfold stripCommas
        rw [List.filter_eq_self.mpr ?hall]
        case hall =>
          intro c hcg
          rw [List.mem_append] at hcg
          rcases hcg with hcg | hcg
          · exact decide_eq_true (hc g (List.mem_singleton.mpr rfl) c hcg)
          · cases hcg
      · have hstep : List.intercalate [','] (g :: g2 :: rest) =
            g ++ ',' :: List.intercalate [','] (g2 :: rest) := by
          unfold List.intercalate
          rw [List.intersperse_cons₂, List.flatten_cons, List.flatten_cons]
          simp
        rw [hstep]
        unfold stripCommas
        rw [List.filter_append]
        show _ ++ List.filter _ (',' :: _) = _
        rw [List.filter_cons_of_neg (by decide)]
        have hg : List.filter (fun c => decide (c ≠ ',')) g = g := by
          rw [List.filter_eq_self]
          intro c hcg
          exact decide_eq_true (hc g (List.mem_cons_self _ _) c hcg)
        rw [hg]
        have hrest := ih (g2 :: rest) (by simp at h ⊢; omega)
          (fun g' hg' c hc' => hc g' (List.mem_cons_of_mem _ hg') c hc')
        unfold stripCommas at hrest
        rw [hrest]
        simp
  intro gs hc
  exact H gs.length gs le_rfl hc

end Frontend

namespace Frontend

/-- Members of a three-chunk are members of the original list. -/
theorem mem_chunk3_subset {l g : List Char} (hg : g ∈ chunk3 l) {c : Char}
    (hc : c ∈ g) : c ∈ l := by
  have h := List.mem_flatten_of_mem hg hc
  rwa [chunk3_flatten] at h

/-- A nonempty list of at most three elements is a single chunk. -/
theorem chunk3_small {g : List Char} (h1 : g ≠ []) (h3 : g.length ≤ 3) :
    chunk3 g = [g] := by
  rcases g with _ | ⟨a, _ | ⟨b, _ | ⟨c, _ | ⟨e, r⟩⟩⟩⟩
  · exact absurd rfl h1
  · rfl
  · rfl
  · rfl
  · rw [List.length_cons, List.length_cons, List.length_cons,
      List.length_cons] at h3
    omega

/-- Chunking distributes over an append whose first part has a multiple of
three elements. -/
theorem chunk3_append3 : ∀ (A B : List Char), A.length % 3 = 0 →
    chunk3 (A ++ B) = chunk3 A ++ chunk3 B := by
  have H : ∀ (n : Nat) (A B : List Char), A.length ≤ n → A.length % 3 = 0 →
      chunk3 (A ++ B) = chunk3 A ++ chunk3 B := by
    intro n
    induction n with
    | zero =>
      intro A B h hm
      have hA : A = [] := List.eq_nil_of_length_eq_zero (by omega)
      subst hA
      rfl
    | succ n ih =>
      intro A B h hm
      rcases A with _ | ⟨a, _ | ⟨b, _ | ⟨c, r⟩⟩⟩
      · rfl
      · rw [List.length_cons, List.length_nil] at hm
        omega
      · rw [List.length_cons, List.length_cons, List.length_nil] at hm
        omega
      · rw [List.length_cons, List.length_cons, List.length_cons] at h hm
        show [a, b, c] :: chunk3 (r ++ B) = ([a, b, c] :: chunk3 r) ++ chunk3 B
        rw [ih r B (by omega) (by omega)]
        rfl
  intro A B hm
  exact H A.length A B le_rfl hm

/-- The right-to-left chunk decomposition of a nonempty list is nonempty. -/
theorem chunkGroups_ne_nil {l : List Char} (h : l ≠ []) : chunkGroups l ≠ [] := by
  intro hc
  unfold chunkGroups at hc
  rw [List.reverse_eq_nil_iff, List.map_eq_nil_iff] at hc
  have hfl := chunk3_flatten l.reverse
  rw [hc] at hfl
  have h0 : l.reverse = [] := by simpa using hfl.symm
  rw [List.reverse_eq_nil_iff] at h0
  exact h h0

/-- Peeling the head group off a comma intercalation. -/
theorem intercalate_cons_ne {g : List Char} {gs : List (List Char)}
    (h : gs ≠ []) :
    List.intercalate [','] (g :: gs)
      = g ++ ',' :: List.intercalate [','] gs := by
  rcases gs with _ | ⟨g2, rest⟩
  · exact absurd rfl h
  · unfold List.intercalate
    rw [List.intersperse_cons₂, List.flatten_cons, List.flatten_cons]
    simp

/-- `takeWhile` keeps an all-digit list whole. -/
theorem takeWhile_all {l : List Char} (h : ∀ c ∈ l, c.isDigit = true) :
    l.takeWhile Char.isDigit = l := by
  induction l with
  | nil => rfl
  | cons c rest ih =>
    rw [List.takeWhile_cons_of_pos (h c (List.mem_cons_self _ _))]
    rw [ih (fun x hx => h x (List.mem_cons_of_mem _ hx))]

/-- On an all-digit suffix after a digit, the regex matches exactly when the
number of remaining characters is a multiple of three. -/
theorem commaHere_digits {prev : Char} {l : List Char}
    (hp : prev.isDigit = true) (hl : ∀ c ∈ l, c.isDigit = true)
    (hne : l ≠ []) :
    commaHere prev l = (l.length % 3 == 0) := by
  rcases l with _ | ⟨c, rest⟩
  · exact absurd rfl hne
  · have hw : isWordChar prev = true := by
      unfold isWordChar Char.isAlphanum
      rw [hp]
      simp
    show (c.isDigit && isWordChar prev
        && (((c :: rest).takeWhile Char.isDigit).length % 3 == 0)) = _
    rw [hl c (List.mem_cons_self _ _), hw, takeWhile_all hl]
    simp

/-- After a digit, the replacement inserts a comma and recurses exactly when
the all-digit remainder is a nonempty multiple of three. -/
theorem groupAux_digits_zero {prev : Char} {l : List Char}
    (hp : prev.isDigit = true) (hl : ∀ c ∈ l, c.isDigit = true)
    (hm : l.length % 3 = 0) :
    groupAux prev l = if l = [] then [] else ',' :: groupIntChars l := by
  rcases l with _ | ⟨c, rest⟩
  · rfl
  · rw [if_neg (by simp)]
    show (if commaHere prev (c :: rest) then [','] else [])
        ++ c :: groupAux c rest = _
    rw [commaHere_digits hp hl (by simp),
      if_pos (by simp only [beq_iff_eq]; exact hm)]
    rfl

/-- The regex leaves a head group of up to three digits untouched and, when
a multiple-of-three remainder follows, inserts one comma before it. -/
theorem groupInt_peel {g rest : List Char} (hg : ∀ c ∈ g, c.isDigit = true)
    (hr : ∀ c ∈ rest, c.isDigit = true) (h1 : g ≠ []) (h3 : g.length ≤ 3)
    (hrm : rest.length % 3 = 0) :
    groupIntChars (g ++ rest)
      = g ++ (if rest = [] then [] else ',' :: groupIntChars rest) := by
  rcases g with _ | ⟨a, _ | ⟨b, _ | ⟨c, _ | ⟨e, r⟩⟩⟩⟩
  · exact absurd rfl h1
  · show a :: groupAux a rest = a :: _
    congr 1
    exact groupAux_digits_zero (hg a (by simp)) hr hrm
  · show a :: groupAux a (b :: rest) = a :: b :: _
    congr 1
    have hbd : ∀ x ∈ b :: rest, x.isDigit = true := by
      intro x hx
      rcases List.mem_cons.mp hx with rfl | hx
      · exact hg _ (by simp)
      · exact hr x hx
    show (if commaHere a (b :: rest) then [','] else [])
        ++ b :: groupAux b rest = _
    rw [commaHere_digits (hg a (by simp)) hbd (by simp)]
    rw [if_neg (by simp only [List.length_cons, beq_iff_eq]; omega)]
    show b :: groupAux b rest = b :: _
    congr 1
    exact groupAux_digits_zero (hg b (by simp)) hr hrm
  · show a :: groupAux a (b :: c :: rest) = a :: b :: c :: _
    congr 1
    have hcd : ∀ x ∈ c :: rest, x.isDigit = true := by
      intro x hx
      rcases List.mem_cons.mp hx with rfl | hx
      · exact hg _ (by simp)
      · exact hr x hx
    have hbd : ∀ x ∈ b :: c :: rest, x.isDigit = true := by
      intro x hx
      rcases List.mem_cons.mp hx with rfl | hx
      · exact hg _ (by simp)
      · exact hcd x hx
    show (if commaHere a (b :: c :: rest) then [','] else [])
        ++ b :: groupAux b (c :: rest) = _
    rw [commaHere_digits (hg a (by simp)) hbd (by simp)]
    rw [if_neg (by simp only [List.length_cons, beq_iff_eq]; omega)]
    show b :: groupAux b (c :: rest) = b :: c :: _
    congr 1
    show (if commaHere b (c :: rest) then [','] else [])
        ++ c :: groupAux c rest = _
    rw [commaHere_digits (hg b (by simp)) hcd (by simp)]
    rw [if_neg (by simp only [List.length_cons, beq_iff_eq]; omega)]
    show c :: groupAux c rest = c :: _
    congr 1
    exact groupAux_digits_zero (hg c (by simp)) hr hrm
  · rw [List.length_cons, List.length_cons, List.length_cons,
      List.length_cons] at h3
    omega

/-- A leading minus sign is left alone: the position after it is a word
boundary, so `\B` fails there. -/
theorem groupIntChars_minus (l : List Char) :
    groupIntChars ('-' :: l) = '-' :: groupIntChars l := by
  rcases l with _ | ⟨c, rest⟩
  · rfl
  · have hw : commaHere '-' (c :: rest) = false := by
      show (c.isDigit && isWordChar '-' && _) = false
      rw [show isWordChar '-' = false from by decide]
      simp
    show '-' :: ((if commaHere '-' (c :: rest) then [','] else [])
        ++ c :: groupAux c rest) = _
    rw [if_neg (by simp [hw])]
    rfl

/-- Peeling the head group off the chunk decomposition. -/
theorem chunkGroups_peel {g rest : List Char} (h1 : g ≠ []) (h3 : g.length ≤ 3)
    (hrm : rest.length % 3 = 0) :
    chunkGroups (g ++ rest) = g :: chunkGroups rest := by
  unfold chunkGroups
  rw [List.reverse_append]
  rw [chunk3_append3 _ _ (by rw [List.length_reverse]; exact hrm)]
  rw [@chunk3_small g.reverse (by simpa using h1)
    (by rw [List.length_reverse]; exact h3)]
  rw [List.map_append, List.reverse_append]
  simp

/-- On an all-digit integer part, the regex replacement produces exactly the
comma intercalation of the right-to-left three-chunks. -/
theorem groupInt_digits {l : List Char} (hl : ∀ c ∈ l, c.isDigit = true) :
    groupIntChars l = List.intercalate [','] (chunkGroups l) := by
  have H : ∀ (n : Nat) (l : List Char), l.length ≤ n →
      (∀ c ∈ l, c.isDigit = true) →
      groupIntChars l = List.intercalate [','] (chunkGroups l) := by
    intro n
    induction n with
    | zero =>
      intro l h hl
      have h0 : l = [] := List.eq_nil_of_length_eq_zero (by omega)
      subst h0
      rfl
    | succ n ih =>
      intro l h hl
      by_cases hne : l = []
      · subst hne
        rfl
      · have hlp : 0 < l.length := List.length_pos.mpr hne
        have hex : ∃ k, 1 ≤ k ∧ k ≤ 3 ∧ k ≤ l.length
            ∧ (l.length - k) % 3 = 0 := by
          by_cases hc : l.length % 3 = 0
          · exact ⟨3, by omega, le_rfl, by omega, by omega⟩
          · exact ⟨l.length % 3, by omega, by omega, Nat.mod_le _ _, by omega⟩
        obtain ⟨k, hk1, hk3, hkle, hrm⟩ := hex
        have hsplit : l.take k ++ l.drop k = l := List.take_append_drop k l
        have hglen : (l.take k).length = k := by
          rw [List.length_take]
          omega
        have hrlen : (l.drop k).length = l.length - k := List.length_drop k l
        have hgdig : ∀ c ∈ l.take k, c.isDigit = true :=
          fun c hc => hl c (List.take_subset k l hc)
        have hrdig : ∀ c ∈ l.drop k, c.isDigit = true :=
          fun c hc => hl c (List.drop_subset k l hc)
        have hgne : l.take k ≠ [] := by
          intro h0
          rw [h0] at hglen
          rw [List.length_nil] at hglen
          omega
        conv_lhs => rw [← hsplit]
        conv_rhs => rw [← hsplit]
        rw [groupInt_peel hgdig hrdig hgne (by omega) (by omega)]
        rw [chunkGroups_peel hgne (by omega) (by omega)]
        by_cases hre : l.drop k = []
        · rw [if_pos hre, hre]
          show l.take k ++ [] = List.intercalate [','] [l.take k]
          unfold List.intercalate
          rw [List.intersperse_single, List.flatten_cons, List.flatten_nil]
        · rw [if_neg hre]
          rw [intercalate_cons_ne (chunkGroups_ne_nil hre)]
          rw [ih (l.drop k) (by omega) hrdig]
  exact H l.length l le_rfl hl

/-- The comma-grouped integer digits decompose into groups of at most three, exactly three after the first, flattening to the input. -/
theorem groupIntChars_groups (l : List Char) (hl : ∀ c ∈ l, c.isDigit = true) :
    ∃ gs : List (List Char),
      groupIntChars l = List.intercalate [','] gs ∧
      gs.flatten = l ∧
      (∀ g ∈ gs, 1 ≤ g.length ∧ g.length ≤ 3) ∧
      (∀ g ∈ gs.tail, g.length = 3) ∧
      (∀ g ∈ gs, ∀ c ∈ g, c ∈ l) := by
  refine ⟨((chunk3 l.reverse).map List.reverse).reverse, groupInt_digits hl,
    ?_, ?_, ?_, ?_⟩
  · rw [← List.reverse_flatten, chunk3_flatten, List.reverse_reverse]
  · intro g hg
    rw [List.mem_reverse, List.mem_map] at hg
    rcases hg with ⟨h, hh, rfl⟩
    rw [List.length_reverse]
    exact chunk3_mem_length _ _ hh
  · intro g hg
    rw [List.tail_reverse, ← List.map_dropLast, List.mem_reverse,
      List.mem_map] at hg
    rcases hg with ⟨h, hh, rfl⟩
    rw [List.length_reverse]
    exact chunk3_dropLast_length _ _ hh
  · intro g hg c hc
    rw [List.mem_reverse, List.mem_map] at hg
    rcases hg with ⟨h, hh, rfl⟩
    rw [List.mem_reverse] at hc
    have h2 := mem_chunk3_subset hh hc
    rwa [List.mem_reverse] at h2

/-- The decimal rendering of a natural number is never empty. -/
theorem natToChars_ne_nil (n : Nat) : natToChars n ≠ [] := by
  unfold natToChars
  by_cases hn : n = 0
  · rw [if_pos hn]
    simp
  · rw [if_neg hn]
    unfold natDigitsBE
    rw [natDigitsLE_eq]
    simp [Nat.digits_ne_nil_iff_ne_zero, hn]

end Frontend

namespace Frontend

/-- Removing commas from a comma-free string does nothing. -/
theorem stripCommas_of_no_comma {l : List Char} (h : ∀ c ∈ l, c ≠ ',') :
    stripCommas l = l := by
  unfold stripCommas
  rw [List.filter_eq_self]
  intro c hc
  exact decide_eq_true (h c hc)

/-- Value of a dot-free all-digit fixed-point string. -/
theorem ratOfFixedAbs_int {ip : List Char} (hne : ip ≠ [])
    (hdig : ∀ c ∈ ip, c.isDigit = true) :
    ratOfFixedAbs ip = some ((LoadParser.natOfDigits ip : ℚ)) := by
  have hsp : splitAtDot ip = (ip, none) :=
    splitAtDot_no_dot (fun c hc => isDigit_ne_dot (hdig c hc))
  have hcond : (decide (ip ≠ []) && ip.all Char.isDigit) = true := by
    rw [Bool.and_eq_true, decide_eq_true_eq, List.all_eq_true]
    exact ⟨hne, fun c hc => hdig c hc⟩
  unfold ratOfFixedAbs
  simp only [hsp, hcond]
  rw [if_pos trivial]

/-- Value of a fixed-point string with integer and fraction digits. -/
theorem ratOfFixedAbs_frac {ip fp : List Char} (hne : ip ≠ [])
    (hdig : ∀ c ∈ ip, c.isDigit = true)
    (hfp : ∀ c ∈ fp, c.isDigit = true) :
    ratOfFixedAbs (ip ++ '.' :: fp) =
      some (mkRat (LoadParser.natOfDigits ip * 10 ^ fp.length
        + LoadParser.natOfDigits fp) (10 ^ fp.length)) := by
  have hsp : splitAtDot (ip ++ '.' :: fp) = (ip, some fp) :=
    splitAtDot_append (fun c hc => isDigit_ne_dot (hdig c hc))
  have hcond : (decide (ip ≠ []) && ip.all Char.isDigit
      && fp.all Char.isDigit) = true := by
    rw [Bool.and_eq_true, Bool.and_eq_true, decide_eq_true_eq,
      List.all_eq_true, List.all_eq_true]
    exact ⟨⟨hne, fun c hc => hdig c hc⟩, fun c hc => hfp c hc⟩
  unfold ratOfFixedAbs
  simp only [hsp, hcond]
  rw [if_pos trivial]

/-- A leading minus sign negates the parsed value. -/
theorem ratOfFixed_neg (rest : List Char) :
    ratOfFixed ('-' :: rest) = (ratOfFixedAbs rest).map (fun q => -q) := rfl

/-- Without a leading minus sign the parse is unsigned. -/
theorem ratOfFixed_digits {l : List Char}
    (hdig : ∀ c ∈ l, c.isDigit = true) :
    ratOfFixed l = ratOfFixedAbs l := by
  unfold ratOfFixed
  split
  · rename_i rest
    exact absurd (hdig '-' (List.mem_cons_self _ _)) (by decide)
  · rfl

/-- Parsing the unsigned `toFixed` rendering yields the scaled rounding over `10 ^ d`. -/
theorem ratOfFixedAbs_js (x : ℚ) (d : Nat) :
    ratOfFixedAbs (natToChars (fixedScaled x d / 10 ^ d)
      ++ (if d = 0 then [] else '.' :: padFrac d (fixedScaled x d % 10 ^ d)))
      = some (mkRat (fixedScaled x d) (10 ^ d)) := by
  by_cases hd : d = 0
  · subst hd
    rw [if_pos rfl, List.append_nil]
    rw [ratOfFixedAbs_int (natToChars_ne_nil _) natToChars_all_digit]
    rw [natOfDigits_natToChars]
    rw [pow_zero, Nat.div_one, Rat.mkRat_one]
    norm_cast
  · rw [if_neg hd]
    rw [ratOfFixedAbs_frac (natToChars_ne_nil _) natToChars_all_digit
      padFrac_all_digit]
    rw [padFrac_length (Nat.mod_lt _ (by positivity))]
    rw [natOfDigits_natToChars, natOfDigits_padFrac]
    have hdm := Nat.div_add_mod (fixedScaled x d) (10 ^ d)
    congr 1
    conv_rhs => rw [← hdm]
    push_cast
    ring

end Frontend

namespace Frontend

/-- The half-up rounding error of `fixedScaled`, scaled through the denominators, is at most half a unit. -/
theorem fixedScaled_key (x : ℚ) (d : Nat) :
    |2 * ((x.num.natAbs : ℚ) * 10 ^ d)
      - 2 * (x.den : ℚ) * (fixedScaled x d : ℚ)| ≤ (x.den : ℚ) := by
  have hb : 0 < x.den := x.den_pos
  have hq : fixedScaled x d
      = (2 * (x.num.natAbs * 10 ^ d) + x.den) / (2 * x.den) := rfl
  have hdm := Nat.div_add_mod (2 * (x.num.natAbs * 10 ^ d) + x.den) (2 * x.den)
  have hlt : (2 * (x.num.natAbs * 10 ^ d) + x.den) % (2 * x.den) < 2 * x.den :=
    Nat.mod_lt _ (by omega)
  rw [← hq] at hdm
  have hdmQ : 2 * (x.den : ℚ) * (fixedScaled x d : ℚ)
      + (((2 * (x.num.natAbs * 10 ^ d) + x.den) % (2 * x.den) : Nat) : ℚ)
      = 2 * ((x.num.natAbs : ℚ) * 10 ^ d) + (x.den : ℚ) := by
    exact_mod_cast hdm
  have hltQ : (((2 * (x.num.natAbs * 10 ^ d) + x.den) % (2 * x.den) : Nat) : ℚ)
      < 2 * (x.den : ℚ) := by
    exact_mod_cast hlt
  have hmnn : (0 : ℚ)
      ≤ (((2 * (x.num.natAbs * 10 ^ d) + x.den) % (2 * x.den) : Nat) : ℚ) :=
    Nat.cast_nonneg _
  rw [abs_le]
  constructor <;> linarith

/-- The value denoted by the `toFixed` output is within half an ulp of the input: correct rounding to `d` fraction digits. -/
theorem fixedValue_close (x : ℚ) (d : Nat) :
    |x - fixedValue x d| ≤ 1 / (2 * 10 ^ d) := by
  have hb : (0 : ℚ) < (x.den : ℚ) := by exact_mod_cast x.den_pos
  have hbne : (x.den : ℚ) ≠ 0 := ne_of_gt hb
  have hp : (0 : ℚ) < 10 ^ d := by positivity
  have hpne : (10 : ℚ) ^ d ≠ 0 := ne_of_gt hp
  have hkey := fixedScaled_key x d
  have hfv : fixedValue x d
      = (if x < 0 then -1 else 1) * ((fixedScaled x d : ℚ) / 10 ^ d) := by
    unfold fixedValue
    rw [Rat.mkRat_eq_div]
    push_cast
    split <;> ring
  have hfvp : fixedValue x d * 10 ^ d
      = (if x < 0 then -1 else 1) * (fixedScaled x d : ℚ) := by
    rw [hfv]
    field_simp
  have hnum : (x.num : ℚ) = x * (x.den : ℚ) := by
    have h0 := Rat.num_div_den x
    rw [div_eq_iff hbne] at h0
    exact h0
  have h2pb : (0 : ℚ) < 2 * 10 ^ d * (x.den : ℚ) := by positivity
  have hprod : |x - fixedValue x d| * (2 * 10 ^ d * (x.den : ℚ))
      ≤ (x.den : ℚ) := by
    rw [← abs_of_pos h2pb, ← abs_mul]
    rcases lt_or_le x 0 with hx | hx
    · rw [if_pos hx] at hfvp
      have hXb : x * (x.den : ℚ) = -(x.num.natAbs : ℚ) := by
        rw [Int.cast_natAbs, Int.cast_abs, abs_of_neg ?hneg, hnum]
        · ring
        case hneg =>
          rw [hnum]
          exact mul_neg_of_neg_of_pos hx hb
      have heq : (x - fixedValue x d) * (2 * 10 ^ d * (x.den : ℚ))
          = -(2 * ((x.num.natAbs : ℚ) * 10 ^ d)
            - 2 * (x.den : ℚ) * (fixedScaled x d : ℚ)) := by
        linear_combination (2 * (10 : ℚ) ^ d) * hXb
          - (2 * (x.den : ℚ)) * hfvp
      rw [heq, abs_neg]
      exact hkey
    · rw [if_neg (not_lt.mpr hx)] at hfvp
      have hXb : x * (x.den : ℚ) = (x.num.natAbs : ℚ) := by
        rw [Int.cast_natAbs, Int.cast_abs, abs_of_nonneg ?hnn, hnum]
        case hnn =>
          rw [hnum]
          exact mul_nonneg hx hb.le
      have heq : (x - fixedValue x d) * (2 * 10 ^ d * (x.den : ℚ))
          = 2 * ((x.num.natAbs : ℚ) * 10 ^ d)
            - 2 * (x.den : ℚ) * (fixedScaled x d : ℚ) := by
        linear_combination (2 * (10 : ℚ) ^ d) * hXb
          - (2 * (x.den : ℚ)) * hfvp
      rw [heq]
      exact hkey
  have h3 : |x - fixedValue x d|
      ≤ (x.den : ℚ) / (2 * 10 ^ d * (x.den : ℚ)) :=
    (le_div_iff h2pb).mpr hprod
  have h4 : (x.den : ℚ) / (2 * 10 ^ d * (x.den : ℚ)) = 1 / (2 * 10 ^ d) := by
    field_simp
    ring
  rwa [h4] at h3

end Frontend

namespace Frontend

/-- The absolute value of a rational times its denominator is the absolute
value of its numerator. -/
theorem abs_mul_den (x : ℚ) : |x| * (x.den : ℚ) = (x.num.natAbs : ℚ) := by
  have hb : (0 : ℚ) < (x.den : ℚ) := by exact_mod_cast x.den_pos
  have hnum : (x.num : ℚ) = x * (x.den : ℚ) := by
    have h0 := Rat.num_div_den x
    rw [div_eq_iff (ne_of_gt hb)] at h0
    exact h0
  rw [Int.cast_natAbs, Int.cast_abs, hnum, abs_mul, abs_of_pos hb]

/-- The numerator/denominator guard in `jsToFixed` is exactly the ECMAScript
magnitude test `10 ^ 21 ≤ |x|`. -/
theorem toFixedMagnitude_iff (x : ℚ) :
    10 ^ 21 * x.den ≤ x.num.natAbs ↔ (10 : ℚ) ^ 21 ≤ |x| := by
  have hb : (0 : ℚ) < (x.den : ℚ) := by exact_mod_cast x.den_pos
  constructor
  · intro h
    have hQ : (10 : ℚ) ^ 21 * (x.den : ℚ) ≤ (x.num.natAbs : ℚ) := by
      exact_mod_cast h
    rw [← abs_mul_den x] at hQ
    exact le_of_mul_le_mul_right hQ hb
  · intro h
    have hQ : (10 : ℚ) ^ 21 * (x.den : ℚ) ≤ |x| * (x.den : ℚ) :=
      mul_le_mul_of_nonneg_right h hb.le
    rw [abs_mul_den x] at hQ
    exact_mod_cast hQ

/-- Below 101 requested digits and the `10 ^ 21` magnitude threshold,
`toFixed` returns the fixed-point string. -/
theorem jsToFixed_ok {x : ℚ} {d : Nat} (hd : d ≤ 100)
    (hlt : x.num.natAbs < 10 ^ 21 * x.den) :
    jsToFixed x d = .ok (String.mk (jsToFixedChars x d)) := by
  unfold jsToFixed
  rw [if_neg (by omega), if_neg (by omega)]

/-- Without comma grouping `formatNumber` returns the raw `toFixed` string. -/
theorem formatNumber_some_false {x : ℚ} {d : Nat} (hd : d ≤ 100)
    (hlt : x.num.natAbs < 10 ^ 21 * x.den) :
    formatNumber (some x) d false = .ok (String.mk (jsToFixedChars x d)) := by
  unfold formatNumber
  simp only [jsToFixed_ok hd hlt]
  rfl

/-- With comma grouping `formatNumber` returns the grouped `toFixed` string. -/
theorem formatNumber_some_true {x : ℚ} {d : Nat} (hd : d ≤ 100)
    (hlt : x.num.natAbs < 10 ^ 21 * x.den) :
    formatNumber (some x) d true
      = .ok (String.mk (groupFixed (jsToFixedChars x d))) := by
  unfold formatNumber
  simp only [jsToFixed_ok hd hlt]
  rfl

/-- Comma removal distributes over concatenation. -/
theorem stripCommas_append (a b : List Char) :
    stripCommas (a ++ b) = stripCommas a ++ stripCommas b :=
  List.filter_append _ _

/-- Structure of the grouped `toFixed` output: an optional sign, integer digits grouped in threes from the right, and for positive `d` a dot and exactly `d` fraction digits. -/
theorem groupFixed_shape (x : ℚ) (d : Nat) :
    ∃ sgn digs : List Char, (sgn = [] ∨ sgn = ['-']) ∧
      (∀ c ∈ digs, c.isDigit = true) ∧ digs ≠ [] ∧
      ∃ gs : List (List Char),
        gs.flatten = digs ∧
        (∀ g ∈ gs, 1 ≤ g.length ∧ g.length ≤ 3) ∧
        (∀ g ∈ gs.tail, g.length = 3) ∧
        (if d = 0 then
          jsToFixedChars x d = sgn ++ digs ∧
          groupFixed (jsToFixedChars x d) = sgn ++ List.intercalate [','] gs
        else
          ∃ fr : List Char, fr.length = d ∧ (∀ c ∈ fr, c.isDigit = true) ∧
            jsToFixedChars x d = sgn ++ digs ++ '.' :: fr ∧
            groupFixed (jsToFixedChars x d)
              = sgn ++ List.intercalate [','] gs ++ '.' :: fr) := by
  rcases groupIntChars_groups (natToChars (fixedScaled x d / 10 ^ d))
      natToChars_all_digit with
    ⟨gs, hic, hfl, hlen, htail, hsub⟩
  refine ⟨if x < 0 then ['-'] else [], natToChars (fixedScaled x d / 10 ^ d),
    ?_, natToChars_all_digit, natToChars_ne_nil _, gs, hfl, hlen, htail, ?_⟩
  · split
    · right
      rfl
    · left
      rfl
  · by_cases hd0 : d = 0
    · subst hd0
      rw [if_pos rfl]
      have hjs : jsToFixedChars x 0 = (if x < 0 then ['-'] else [])
          ++ natToChars (fixedScaled x 0 / 10 ^ 0) := by
        unfold jsToFixedChars
        rw [if_pos rfl, List.append_nil]
      refine ⟨hjs, ?_⟩
      rw [hjs]
      by_cases hx : x < 0
      · rw [if_pos hx]
        have hsp : splitAtDot (['-'] ++ natToChars (fixedScaled x 0 / 10 ^ 0))
            = (['-'] ++ natToChars (fixedScaled x 0 / 10 ^ 0), none) := by
          refine splitAtDot_no_dot ?_
          intro c hc
          rcases List.mem_append.mp hc with hc | hc
          · rcases List.mem_singleton.mp hc with rfl
            decide
          · exact isDigit_ne_dot (natToChars_all_digit c hc)
        unfold groupFixed
        simp only [hsp]
        show groupIntChars ('-' :: natToChars (fixedScaled x 0 / 10 ^ 0))
            = '-' :: List.intercalate [','] gs
        rw [groupIntChars_minus, hic]
      · rw [if_neg hx, List.nil_append, List.nil_append]
        have hsp : splitAtDot (natToChars (fixedScaled x 0 / 10 ^ 0))
            = (natToChars (fixedScaled x 0 / 10 ^ 0), none) :=
          splitAtDot_no_dot
            (fun c hc => isDigit_ne_dot (natToChars_all_digit c hc))
        unfold groupFixed
        simp only [hsp]
        exact hic
    · rw [if_neg hd0]
      refine ⟨padFrac d (fixedScaled x d % 10 ^ d),
        padFrac_length (Nat.mod_lt _ (by positivity)), padFrac_all_digit,
        ?_, ?_⟩
      · unfold jsToFixedChars
        rw [if_neg hd0]
      · have hjs : jsToFixedChars x d = ((if x < 0 then ['-'] else [])
            ++ natToChars (fixedScaled x d / 10 ^ d))
            ++ '.' :: padFrac d (fixedScaled x d % 10 ^ d) := by
          unfold jsToFixedChars
          rw [if_neg hd0, List.append_assoc]
        rw [hjs]
        have hsp : splitAtDot (((if x < 0 then ['-'] else [])
            ++ natToChars (fixedScaled x d / 10 ^ d))
            ++ '.' :: padFrac d (fixedScaled x d % 10 ^ d))
            = ((if x < 0 then ['-'] else [])
              ++ natToChars (fixedScaled x d / 10 ^ d),
              some (padFrac d (fixedScaled x d % 10 ^ d))) := by
          refine splitAtDot_append ?_
          intro c hc
          rcases List.mem_append.mp hc with hc | hc
          · by_cases hx : x < 0
            · rw [if_pos hx] at hc
              rcases List.mem_singleton.mp hc with rfl
              decide
            · rw [if_neg hx] at hc
              cases hc
          · exact isDigit_ne_dot (natToChars_all_digit c hc)
        unfold groupFixed
        simp only [hsp]
        by_cases hx : x < 0
        · rw [if_pos hx]
          show groupIntChars ('-' :: natToChars (fixedScaled x d / 10 ^ d))
              ++ '.' :: padFrac d (fixedScaled x d % 10 ^ d)
            = ('-' :: List.intercalate [','] gs)
              ++ '.' :: padFrac d (fixedScaled x d % 10 ^ d)
          rw [groupIntChars_minus, hic]
        · rw [if_neg hx, List.nil_append, List.nil_append]
          rw [hic]

end Frontend

namespace Frontend

/-- Removing the grouping commas recovers the ungrouped `toFixed` string. -/
theorem groupFixed_strip (x : ℚ) (d : Nat) :
    stripCommas (groupFixed (jsToFixedChars x d)) = jsToFixedChars x d := by
  rcases groupFixed_shape x d with
    ⟨sgn, digs, hsgn, hdig, hne, gs, hfl, hlen, htail, hres⟩
  have hsgnstrip : stripCommas sgn = sgn := by
    rcases hsgn with rfl | rfl
    · rfl
    · rfl
  have hgsfree : ∀ g ∈ gs, ∀ c ∈ g, c ≠ ',' := by
    intro g hg c hc
    have hcd : c ∈ digs := by
      rw [← hfl]
      exact List.mem_flatten_of_mem hg hc
    exact isDigit_ne_comma (hdig c hcd)
  have hicstrip : stripCommas (List.intercalate [','] gs) = digs := by
    rw [stripCommas_intercalate gs hgsfree, hfl]
  by_cases hd0 : d = 0
  · subst hd0
    rw [if_pos rfl] at hres
    rcases hres with ⟨hjs, hgf⟩
    rw [hgf, hjs, stripCommas_append, hsgnstrip, hicstrip]
  · rw [if_neg hd0] at hres
    rcases hres with ⟨fr, hfrlen, hfrdig, hjs, hgf⟩
    have hfrstrip : stripCommas ('.' :: fr) = '.' :: fr := by
      refine stripCommas_of_no_comma ?_
      intro c hc
      rcases List.mem_cons.mp hc with rfl | hc
      · decide
      · exact isDigit_ne_comma (hfrdig c hc)
    rw [hgf, hjs, stripCommas_append, stripCommas_append, hsgnstrip,
      hicstrip, hfrstrip]

/-- A string starting with a digit parses unsigned. -/
theorem ratOfFixed_cons_digit {c : Char} {rest : List Char}
    (hc : c.isDigit = true) :
    ratOfFixed (c :: rest) = ratOfFixedAbs (c :: rest) := by
  unfold ratOfFixed
  split
  · rename_i rest2 heq
    injection heq with h1 h2
    subst h1
    cases hc
  · rfl

/-- The `toFixed` output parses back to exactly the rounded value `fixedValue`. -/
theorem ratOfFixed_js (x : ℚ) (d : Nat) :
    ratOfFixed (jsToFixedChars x d) = some (fixedValue x d) := by
  by_cases hx : x < 0
  · have hjs : jsToFixedChars x d = '-' :: (natToChars (fixedScaled x d / 10 ^ d)
        ++ (if d = 0 then []
          else '.' :: padFrac d (fixedScaled x d % 10 ^ d))) := by
      unfold jsToFixedChars
      rw [if_pos hx]
      rfl
    rw [hjs, ratOfFixed_neg, ratOfFixedAbs_js]
    unfold fixedValue
    rw [if_pos hx]
    show some (-mkRat ((fixedScaled x d : Nat) : Int) (10 ^ d)) = _
    rw [Rat.neg_mkRat]
    congr 2
    ring
  · have hjs : jsToFixedChars x d = natToChars (fixedScaled x d / 10 ^ d)
        ++ (if d = 0 then []
          else '.' :: padFrac d (fixedScaled x d % 10 ^ d)) := by
      unfold jsToFixedChars
      rw [if_neg hx, List.nil_append]
    rcases hnt : natToChars (fixedScaled x d / 10 ^ d) with _ | ⟨c, cs⟩
    · exact absurd hnt (natToChars_ne_nil _)
    · have hcd : c.isDigit = true := by
        exact @natToChars_all_digit (fixedScaled x d / 10 ^ d) c (by rw [hnt]; exact List.mem_cons_self _ _)
      rw [hjs, hnt, List.cons_append, ratOfFixed_cons_digit hcd,
        ← List.cons_append, ← hnt, ratOfFixedAbs_js]
      unfold fixedValue
      rw [if_neg hx]
      congr 2
      ring

end Frontend

namespace Frontend

/-- C9 (amended: `d ≤ 100` and `|x| < 10 ^ 21`, the hypothesis `hlt` being
that magnitude bound spelled on the numerator and denominator, see
`toFixedMagnitude_iff`): `formatNumber` maps null to the empty string;
otherwise both variants succeed, the grouped output is the plain output with
commas inserted, the plain output is a sign, integer digits and exactly `d`
fraction digits, its denoted value is `fixedValue x d` which is within
`1 / (2 * 10 ^ d)` of `x` (correct rounding to `d` places), and the grouped
integer part consists of digit groups of at most three, exactly three after
the first. -/
theorem c9_formatNumber (x : ℚ) (d : Nat) (hd : d ≤ 100)
    (hlt : x.num.natAbs < 10 ^ 21 * x.den) :
    (∀ ac : Bool, formatNumber none d ac = Except.ok "") ∧
    ∃ s t : String,
      formatNumber (some x) d false = Except.ok s ∧
      formatNumber (some x) d true = Except.ok t ∧
      stripCommas t.toList = s.toList ∧
      ratOfFixed s.toList = some (fixedValue x d) ∧
      |x - fixedValue x d| ≤ 1 / (2 * 10 ^ d) ∧
      ∃ sgn digs : List Char, (sgn = [] ∨ sgn = ['-']) ∧
        (∀ c ∈ digs, c.isDigit = true) ∧ digs ≠ [] ∧
        ∃ gs : List (List Char),
          gs.flatten = digs ∧
          (∀ g ∈ gs, 1 ≤ g.length ∧ g.length ≤ 3) ∧
          (∀ g ∈ gs.tail, g.length = 3) ∧
          (if d = 0 then
            s.toList = sgn ++ digs ∧
            t.toList = sgn ++ List.intercalate [','] gs
          else
            ∃ fr : List Char, fr.length = d ∧ (∀ c ∈ fr, c.isDigit = true) ∧
              s.toList = sgn ++ digs ++ '.' :: fr ∧
              t.toList = sgn ++ List.intercalate [','] gs ++ '.' :: fr) := by
  refine ⟨fun ac => rfl,
    String.mk (jsToFixedChars x d),
    String.mk (groupFixed (jsToFixedChars x d)),
    formatNumber_some_false hd hlt, formatNumber_some_true hd hlt,
    groupFixed_strip x d, ratOfFixed_js x d, fixedValue_close x d, ?_⟩
  rcases groupFixed_shape x d with
    ⟨sgn, digs, hsgn, hdig, hne, gs, hfl, hlen, htail, hres⟩
  exact ⟨sgn, digs, hsgn, hdig, hne, gs, hfl, hlen, htail, hres⟩

/-- C9 counterexamples to the original claim.  For `d = 101` ECMAScript
`toFixed` throws a RangeError, so `formatNumber` does not return a string at
all; and at `x = 10 ^ 21` ECMAScript `toFixed` returns `ToString(x)` in
exponential notation, so `formatNumber` returns `1e+21` -- which contains no
decimal point and hence is not a fixed-point decimal with two fraction
digits.  Both are computed through the model. -/
theorem c9_counterexample :
    (formatNumber (some 1) 101 true = Except.error "RangeError" ∧
      ∀ s : String, formatNumber (some 1) 101 true ≠ Except.ok s) ∧
    (formatNumber (some (mkRat (10 ^ 21) 1)) 2 true = Except.ok "1e+21" ∧
      ∀ c ∈ "1e+21".toList, c ≠ '.') := by
  refine ⟨⟨rfl, ?_⟩, rfl, by decide⟩
  intro s h
  have h2 : (Except.error "RangeError" : Except String String)
      = Except.ok s := h
  cases h2

end Frontend

namespace Frontend

/-- Witness for C9 at `x = 1234567.89`, `d = 2`. -/
theorem c9_formatNumber_witness :
    ((2 : Nat) ≤ 100
      ∧ (mkRat 123456789 100).num.natAbs
        < 10 ^ 21 * (mkRat 123456789 100).den) ∧
    ((∀ ac : Bool, formatNumber none 2 ac = Except.ok "") ∧
    ∃ s t : String,
      formatNumber (some (mkRat 123456789 100)) 2 false = Except.ok s ∧
      formatNumber (some (mkRat 123456789 100)) 2 true = Except.ok t ∧
      stripCommas t.toList = s.toList ∧
      ratOfFixed s.toList = some (fixedValue (mkRat 123456789 100) 2) ∧
      |mkRat 123456789 100 - fixedValue (mkRat 123456789 100) 2|
        ≤ 1 / (2 * 10 ^ 2) ∧
      ∃ sgn digs : List Char, (sgn = [] ∨ sgn = ['-']) ∧
        (∀ c ∈ digs, c.isDigit = true) ∧ digs ≠ [] ∧
        ∃ gs : List (List Char),
          gs.flatten = digs ∧
          (∀ g ∈ gs, 1 ≤ g.length ∧ g.length ≤ 3) ∧
          (∀ g ∈ gs.tail, g.length = 3) ∧
          (if 2 = 0 then
            s.toList = sgn ++ digs ∧
            t.toList = sgn ++ List.intercalate [','] gs
          else
            ∃ fr : List Char, fr.length = 2 ∧ (∀ c ∈ fr, c.isDigit = true) ∧
              s.toList = sgn ++ digs ++ '.' :: fr ∧
              t.toList = sgn ++ List.intercalate [','] gs ++ '.' :: fr)) :=
  ⟨⟨by decide, by decide⟩,
    c9_formatNumber (mkRat 123456789 100) 2 (by decide) (by decide)⟩

end Frontend
